import Mathlib

/-!
Verification of the diff/cache/validator core of the climate-negotiation
translation tool (`src/app.py`).

Texts are modelled as `List Char`.  Python functions are embedded as pure
Lean functions; the Streamlit session state (`st.session_state.translation_memory`)
becomes an explicit `Memory` value threaded through the cache operations, and
`datetime.now()` becomes an explicit `now : Nat` argument.  The external HTTP
call in `translate_with_context` is an opaque collaborator and is passed in as
an `ApiResult` value describing its outcome.
-/

/-! ## Tokenizer (`split_into_words`, `re.findall (\S+|\s+)`) -/

/-- Characters matched by Python's regex class `\s` on `str` inputs
(the Unicode whitespace set, as in `str.isspace`). -/
def pythonIsSpace (c : Char) : Bool :=
  decide (c.toNat = 32 ∨ (9 ≤ c.toNat ∧ c.toNat ≤ 13) ∨ (28 ≤ c.toNat ∧ c.toNat ≤ 31) ∨
    c.toNat = 0x85 ∨ c.toNat = 0xa0 ∨ c.toNat = 0x1680 ∨
    (0x2000 ≤ c.toNat ∧ c.toNat ≤ 0x200a) ∨ c.toNat = 0x2028 ∨ c.toNat = 0x2029 ∨
    c.toNat = 0x202f ∨ c.toNat = 0x205f ∨ c.toNat = 0x3000)

/-- Group a string into maximal runs of same-class characters
(non-whitespace run / whitespace run).  This is `re.findall(r"\S+|\s+", text)`:
the alternation of two greedy classes splits the string into exactly the
maximal runs, in order. -/
def groupRuns : List Char → List (List Char)
  | [] => []
  | c :: cs =>
    match groupRuns cs with
    | [] => [[c]]
    | r :: rest =>
      match r with
      | [] => [c] :: r :: rest
      | d :: _ =>
        if pythonIsSpace c = pythonIsSpace d then (c :: r) :: rest else [c] :: r :: rest

/-- `split_into_words` from `get_word_diffs` in `src/app.py`. -/
def split_into_words (text : List Char) : List (List Char) := groupRuns text

/-- Python's `str.split()` with no separator: the maximal non-whitespace runs. -/
def pySplitWS (text : List Char) : List (List Char) :=
  (groupRuns text).filter (fun r =>
    match r with
    | [] => false
    | c :: _ => !pythonIsSpace c)

/-! ## Python string helpers used by the cache and the validator -/

/-- Python `str.lower`, restricted to the alphabet this application works over:
ASCII letters and the Latin-1 letters (covering æ/ø/å and Æ/Ø/Å, whose simple
lowercase mapping adds 32, with the multiplication sign 0xD7 excluded).
Other characters are left unchanged. -/
def pyLower (c : Char) : Char :=
  if 65 ≤ c.toNat ∧ c.toNat ≤ 90 then Char.ofNat (c.toNat + 32)
  else if 192 ≤ c.toNat ∧ c.toNat ≤ 222 ∧ c.toNat ≠ 215 then Char.ofNat (c.toNat + 32)
  else c

/-- `text.lower()`. -/
def lowerStr (s : List Char) : List Char := s.map pyLower

/-- `text.strip()`: drop leading and trailing whitespace. -/
def pyStrip (s : List Char) : List Char :=
  ((s.dropWhile pythonIsSpace).reverse.dropWhile pythonIsSpace).reverse

/-- Python's substring test `p in s` for strings: contiguous substring. -/
def containsSub (s p : List Char) : Bool :=
  s.tails.any (fun t => p.isPrefixOf t)

/-! ## Quality validator (`TranslationQuality`) -/

/-- The `type` field of a validation issue dict. -/
inductive IssueType
  | technical_term
  | formatting
deriving DecidableEq

/-- The `severity` field of a validation issue dict. -/
inductive Severity
  | high
  | medium
  | low
deriving DecidableEq

/-- One issue dict produced by `validate_translation`.  `source` and
`reference` are present only on technical-term issues, modelled as options. -/
structure Issue where
  type : IssueType
  severity : Severity
  message : List Char
  source : Option (List Char)
  reference : Option (List Char)
deriving DecidableEq

/-- One value of the `technical_terms` dict of `TranslationQuality`. -/
structure TermInfo where
  english : List Char
  source : List Char
  context : List Char
  reference : List Char
deriving DecidableEq

/-- `REFERENCE_SITES` from `src/app.py`. -/
def reference_sites : List (List Char) :=
  ["https://www.miljodirektoratet.no/ansvarsomrader/klima/fns-klimapanel-ipcc/dette-sier-fns-klimapanel/klimabegreper-pa-norsk/".data,
   "https://www.ipcc.ch/glossary/".data,
   "https://unfccc.int/process-and-meetings/the-convention/glossary-of-climate-change-acronyms-and-terms".data]

/-- The `technical_terms` glossary built in `TranslationQuality.__init__`,
in insertion order.  Two `source` fields are literally the mojibake bytes
`"Milj√∏direktoratet"` in `src/app.py` (the ø double-encoded), and that is
the string the program stores. -/
def technical_terms : List (List Char × TermInfo) :=
  [("klimaendringer".data,
    { english := "climate change".data, source := "Milj√∏direktoratet".data,
      context := "General term for climate change".data,
      reference := reference_sites.getD 0 [] }),
   ("klimatilpasning".data,
    { english := "climate adaptation".data, source := "IPCC".data,
      context := "Adaptation to climate change".data,
      reference := reference_sites.getD 1 [] }),
   ("utslippsreduksjon".data,
    { english := "emission reduction".data, source := "Milj√∏direktoratet".data,
      context := "Used in mitigation contexts".data,
      reference := reference_sites.getD 0 [] }),
   ("klimafinansiering".data,
    { english := "climate finance".data, source := "UNFCCC".data,
      context := "Financial flows related to climate action".data,
      reference := reference_sites.getD 2 [] }),
   ("karbonbudsjett".data,
    { english := "carbon budget".data, source := "IPCC".data,
      context := "Remaining carbon emissions allowance".data,
      reference := reference_sites.getD 1 [] })]

/-- The message of a technical-term issue:
`f"Warning: '{term}' might not be correctly translated as '{english}'"`. -/
def termIssueMessage (term english : List Char) : List Char :=
  "Warning: '".data ++ term ++ "' might not be correctly translated as '".data ++
    english ++ "'".data

/-- The character set checked by the third validation rule.  The literal on
the `set(...)` line of `src/app.py` is mojibake — UTF-8 for æøåÆØÅ decoded
once more as UTF-8 — so the source text, and hence the runtime set, consists
of the seven distinct characters of the twelve-character literal: √ (U+221A),
¶ (U+00B6), ∏ (U+220F), • (U+2022), Ü (U+00DC), ò (U+00F2), Ö (U+00D6). -/
def norwegianChars : List Char := ['√', '¶', '∏', '•', 'Ü', 'ò', 'Ö']

/-- Bit length (Python's `int.bit_length`), with fuel so the kernel can
evaluate it; the recursion halves `n` each step, so `n` itself is enough
fuel. -/
def bitLenAux : Nat → Nat → Nat
  | 0, _ => 0
  | fuel + 1, n => if n = 0 then 0 else bitLenAux fuel (n / 2) + 1

/-- Bit length of a natural number. -/
def bitLen (n : Nat) : Nat := bitLenAux n n

/-- CPython's conversion of a non-negative `int` to `float`, returned as the
exact integer value of the resulting IEEE-754 double: round to 53 significant
bits, ties to even.  Word counts are list lengths, far below the double
overflow threshold, so no overflow case arises. -/
def floatRound (n : Nat) : Nat :=
  if n ≤ 2 ^ 53 then n
  else
    let s := bitLen n - 53
    let q := n / 2 ^ s
    let r := n % 2 ^ s
    let q' := if 2 ^ s < 2 * r ∨ (2 * r = 2 ^ s ∧ q % 2 = 1) then q + 1 else q
    q' * 2 ^ s

/-- `TranslationQuality.validate_translation`.  The length-ratio guard
`len(translated.split()) < len(original.split()) * 0.5` evaluates under
Python float semantics: the int word count `wo` is first converted to a
double (`floatRound wo`), multiplying a double by `0.5` is exact (an
exponent decrement), and CPython's int-to-float comparison is exact, so the
guard is `wt < floatRound wo / 2` over the rationals, i.e.
`2 * wt < floatRound wo`.  For `wo ≤ 2^53` the conversion is exact and this
is the ideal `2 * wt < wo`; above that they can differ. -/
def validate_translation (original translated direction : List Char) : List Issue :=
  let termIssues : List Issue :=
    if direction = "no-to-en".data then
      technical_terms.filterMap (fun td =>
        if containsSub (lowerStr original) (lowerStr td.1) ∧
            ¬ containsSub (lowerStr translated) (lowerStr td.2.english) then
          some { type := IssueType.technical_term, severity := Severity.high,
                 message := termIssueMessage td.1 td.2.english,
                 source := some td.2.source, reference := some td.2.reference }
        else none)
    else []
  let lengthIssues : List Issue :=
    if 2 * (pySplitWS translated).length < floatRound (pySplitWS original).length then
      [{ type := IssueType.formatting, severity := Severity.medium,
         message := "Warning: Translation appears too short".data,
         source := none, reference := none }]
    else []
  let charIssues : List Issue :=
    if direction = "no-to-en".data ∧ translated.any (fun c => norwegianChars.contains c) then
      [{ type := IssueType.formatting, severity := Severity.high,
         message := "Warning: Some Norwegian characters remain in the translation".data,
         source := none, reference := none }]
    else []
  termIssues ++ lengthIssues ++ charIssues

/-! ## Translation memory (`st.session_state.translation_memory`) -/

/-- One value of the translation-memory dict. -/
structure CacheEntry where
  translation : List Char
  timestamp : Nat
  direction : List Char
deriving DecidableEq

/-- The translation-memory dict, as an insertion-ordered association list
(new keys are appended; at most one entry per key is ever created). -/
abbrev Memory := List (List Char × CacheEntry)

/-- The cache key `f"{text.strip().lower()}_{direction}"`. -/
def cacheKey (text direction : List Char) : List Char :=
  lowerStr (pyStrip text) ++ '_' :: direction

/-- `update_translation_memory` from `src/app.py`.  The Python function
mutates the session dict and returns `None`; here the returned `Unit` is that
`None` and the new memory is returned alongside it. -/
def update_translation_memory (original translated direction : List Char)
    (now : Nat) (mem : Memory) : Unit × Memory :=
  let key := cacheKey original direction
  if (mem.lookup key).isSome then ((), mem)
  else ((), mem ++ [(key, { translation := translated, timestamp := now,
                            direction := direction })])

/-- `get_from_translation_memory` from `src/app.py`. -/
def get_from_translation_memory (text direction : List Char) (mem : Memory) :
    Option (List Char) :=
  (mem.lookup (cacheKey text direction)).map (fun e => e.translation)

/-! ## `translate_with_context` -/

/-- Outcome of the opaque external API call made by `translate_with_context`:
a 200 response with extracted text, a non-200 response, or a raised exception. -/
inductive ApiResult
  | success (translated_text : List Char)
  | httpError (code : Nat) (body : List Char)
  | exn (msg : List Char)

/-- The dict returned by `translate_with_context`: `status_code` always,
`content` as the single text when present, `validation` only on a fresh
successful translation, `error` only on failure. -/
structure TranslateResponse where
  status_code : Nat
  content : Option (List Char)
  validation : Option (List Issue)
  error : Option (List Char)
deriving DecidableEq

/-- The non-cached path of `translate_with_context`: perform the API call,
validate, store in memory, and build the response dict.  Prompt construction
does not influence the returned dict and is part of the opaque call. -/
def translateViaApi (text direction : List Char) (api : ApiResult) (now : Nat)
    (mem : Memory) : TranslateResponse × Memory :=
  match api with
  | ApiResult.success t =>
    let validation := validate_translation text t direction
    let mem' := (update_translation_memory text t direction now mem).2
    ({ status_code := 200, content := some t, validation := some validation,
       error := none }, mem')
  | ApiResult.httpError code body =>
    ({ status_code := code, content := none, validation := none,
       error := some ("API error: ".data ++ body) }, mem)
  | ApiResult.exn m =>
    ({ status_code := 500, content := none, validation := none,
       error := some ("Translation error: ".data ++ m) }, mem)

/-- `translate_with_context` from `src/app.py`.  The cache check is Python
truthiness: `if cached_translation:` is taken only when the lookup succeeded
AND the cached string is non-empty. -/
def translate_with_context (text direction : List Char) (api : ApiResult)
    (now : Nat) (mem : Memory) : TranslateResponse × Memory :=
  match get_from_translation_memory text direction mem with
  | some cached =>
    if cached ≠ [] then
      ({ status_code := 200, content := some cached, validation := none,
         error := none }, mem)
    else translateViaApi text direction api now mem
  | none => translateViaApi text direction api now mem

/-! ## `difflib.SequenceMatcher(None, a, b)`

The word-diff calls `difflib.SequenceMatcher(None, original_words,
suggested_words)`.  `isjunk` is `None`, so `bjunk` is empty; `autojunk` is the
default `True`, so for `len(b) >= 200` the "popular" elements (more than
`len(b) // 100 + 1` occurrences) are dropped from `b2j`.  The matcher is
embedded generically over a type with decidable equality. -/

section SequenceMatcher

variable {α : Type} [DecidableEq α]

/-- All indices `j` with `b[j] = x`, in increasing order (how `__chain_b`
builds the `b2j` index lists). -/
def occIdxs (b : List α) (x : α) : List Nat :=
  (List.range b.length).filter (fun j => decide (b.get? j = some x))

/-- The `b2j` lists after `__chain_b`: the occurrence list of `x` in `b`,
emptied when `x` is "popular" under autojunk (`len(b) >= 200` and more than
`len(b) // 100 + 1` occurrences). -/
def b2j (b : List α) (x : α) : List Nat :=
  if 200 ≤ b.length ∧ b.length / 100 + 1 < (occIdxs b x).length then [] else occIdxs b x

/-- `bjunk.__contains__`: `isjunk` is `None` at the call site, so the junk set
is empty. -/
def isbjunk (_x : α) : Bool := false

/-- The inner `for j in b2j.get(a[i], nothing)` loop's view of the index list:
`if j < blo: continue` skips, `if j >= bhi: break` stops. -/
def collectJs (blo bhi : Nat) : List Nat → List Nat
  | [] => []
  | j :: rest =>
    if j < blo then collectJs blo bhi rest
    else if bhi ≤ j then []
    else j :: collectJs blo bhi rest

/-- The `j2len` index lists consumed by `find_longest_match`, at outer index
`i` of the word list `a`.  Out-of-range `i` never occurs in reachable calls
(the outer loop ranges over valid indices) and yields no matches. -/
def jsAt (a b : List α) (blo bhi i : Nat) : List Nat :=
  match a.get? i with
  | some x => collectJs blo bhi (b2j b x)
  | none => []

/-- `newj2len[j] = j2len.get(j-1, 0) + 1`; in Python `j-1` is `-1` when
`j = 0`, which is never a key, so that case reads 0. -/
def newk (old : List (Nat × Nat)) (j : Nat) : Nat :=
  (if j = 0 then 0 else ((old.lookup (j - 1)).getD 0)) + 1

/-- The body of the `for j in ...` loop of `find_longest_match`: builds the
new `j2len` association (consing each `(j, k)`) and takes the best match
`(i-k+1, j-k+1, k)` whenever `k > bestsize`. -/
def processJs (i : Nat) (old : List (Nat × Nat)) :
    List Nat → List (Nat × Nat) → Nat × Nat × Nat → List (Nat × Nat) × (Nat × Nat × Nat)
  | [], acc, best => (acc, best)
  | j :: js, acc, best =>
    let k := newk old j
    let best' := if best.2.2 < k then (i + 1 - k, j + 1 - k, k) else best
    processJs i old js ((j, k) :: acc) best'

/-- The outer `for i in range(alo, ahi)` loop of `find_longest_match`. -/
def flmLoop (a b : List α) (blo bhi : Nat) :
    List Nat → List (Nat × Nat) → Nat × Nat × Nat → Nat × Nat × Nat
  | [], _, best => best
  | i :: is, j2len, best =>
    let r := processJs i j2len (jsAt a b blo bhi i) [] best
    flmLoop a b blo bhi is r.1 r.2

/-- `a[i] == b[j]`, with both indices in range (they always are at the
call sites; out-of-range is treated as a failed comparison). -/
def matchAt (a b : List α) (i j : Nat) : Bool :=
  match a.get? i, b.get? j with
  | some x, some y => decide (x = y)
  | _, _ => false

/-- `isbjunk(b[idx]) == jv`, with `idx` in range at every reachable call. -/
def junkAt (b : List α) (idx : Nat) (jv : Bool) : Bool :=
  match b.get? idx with
  | some y => isbjunk y == jv
  | none => false

/-- Condition of the two "extend backward" while-loops of
`find_longest_match` (`jv = false` for the non-junk phase, `true` for the
junk phase; with `isjunk = None` the junk phase never fires). -/
def extLCond (a b : List α) (alo blo : Nat) (jv : Bool) (bi bj : Nat) : Bool :=
  decide (alo < bi) && decide (blo < bj) && junkAt b (bj - 1) jv &&
    matchAt a b (bi - 1) (bj - 1)

/-- The "extend backward" while-loops: decrement `besti`/`bestj` and grow
`bestsize` while the condition holds.  Structural on `bi` (which strictly
decreases; at `bi = 0` the `alo < bi` conjunct is false and the loop stops). -/
def extendLeft (a b : List α) (alo blo : Nat) (jv : Bool) :
    Nat → Nat → Nat → Nat × Nat × Nat
  | 0, bj, bs => (0, bj, bs)
  | bi + 1, bj, bs =>
    if extLCond a b alo blo jv (bi + 1) bj then
      extendLeft a b alo blo jv bi (bj - 1) (bs + 1)
    else (bi + 1, bj, bs)

/-- Condition of the two "extend forward" while-loops. -/
def extRCond (a b : List α) (ahi bhi : Nat) (jv : Bool) (bi bj bs : Nat) : Bool :=
  decide (bi + bs < ahi) && decide (bj + bs < bhi) && junkAt b (bj + bs) jv &&
    matchAt a b (bi + bs) (bj + bs)

/-- The "extend forward" while-loops, structural on the remaining room
`gas = ahi - (bi + bs)`: each iteration requires `bi + bs < ahi` and grows
`bs` by one, so `gas` dominates the iteration count, and when `gas = 0` the
`bi + bs < ahi` conjunct is false and the loop would stop anyway. -/
def extendRightAux (a b : List α) (ahi bhi : Nat) (jv : Bool) (bi bj : Nat) :
    Nat → Nat → Nat × Nat × Nat
  | 0, bs => (bi, bj, bs)
  | gas + 1, bs =>
    if extRCond a b ahi bhi jv bi bj bs then
      extendRightAux a b ahi bhi jv bi bj gas (bs + 1)
    else (bi, bj, bs)

/-- The "extend forward" while-loops of `find_longest_match`. -/
def extendRight (a b : List α) (ahi bhi : Nat) (jv : Bool) (bi bj bs : Nat) :
    Nat × Nat × Nat :=
  extendRightAux a b ahi bhi jv bi bj (ahi - (bi + bs)) bs

/-- `SequenceMatcher.find_longest_match(alo, ahi, blo, bhi)`: the core
dynamic-programming loop followed by the four extension loops (backward and
forward, non-junk then junk). -/
def find_longest_match (a b : List α) (alo ahi blo bhi : Nat) : Nat × Nat × Nat :=
  let m := flmLoop a b blo bhi (List.range' alo (ahi - alo)) [] (alo, blo, 0)
  let m := extendLeft a b alo blo false m.1 m.2.1 m.2.2
  let m := extendRight a b ahi bhi false m.1 m.2.1 m.2.2
  let m := extendLeft a b alo blo true m.1 m.2.1 m.2.2
  extendRight a b ahi bhi true m.1 m.2.1 m.2.2

/-- The queue-driven divide and conquer of `get_matching_blocks`, written
recursively: the match splits the window and the two sub-windows are searched
when non-degenerate.  The Python version accumulates blocks in stack order
and sorts them afterwards; block `i`-intervals are disjoint and increasing
left to right, so the sorted order is exactly `left ++ mid ++ right`.  `fuel`
bounds the recursion depth: each call strictly decreases the window measure
`(ahi - alo) + (bhi - blo)`, and every entry point passes a fuel that
dominates it, so the `fuel = 0` cutoff (which coincides with the degenerate
empty-window result) is never hit below a live window. -/
def matchingBlocksAux (a b : List α) : Nat → Nat → Nat → Nat → Nat → List (Nat × Nat × Nat)
  | 0, _, _, _, _ => []
  | fuel + 1, alo, ahi, blo, bhi =>
    let m := find_longest_match a b alo ahi blo bhi
    if m.2.2 = 0 then []
    else
      (if alo < m.1 ∧ blo < m.2.1 then matchingBlocksAux a b fuel alo m.1 blo m.2.1 else []) ++
        m :: (if m.1 + m.2.2 < ahi ∧ m.2.1 + m.2.2 < bhi then
          matchingBlocksAux a b fuel (m.1 + m.2.2) ahi (m.2.1 + m.2.2) bhi else [])

/-- The adjacent-block collapsing pass of `get_matching_blocks` (state
`(i1, j1, k1)` starts at `(0, 0, 0)`; a pending block is emitted when the
next one is not adjacent, and at the end when non-trivial). -/
def collapseBlocks : Nat → Nat → Nat → List (Nat × Nat × Nat) → List (Nat × Nat × Nat)
  | i1, j1, k1, [] => if k1 ≠ 0 then [(i1, j1, k1)] else []
  | i1, j1, k1, (i2, j2, k2) :: rest =>
    if i1 + k1 = i2 ∧ j1 + k1 = j2 then collapseBlocks i1 j1 (k1 + k2) rest
    else (if k1 ≠ 0 then [(i1, j1, k1)] else []) ++ collapseBlocks i2 j2 k2 rest

/-- `SequenceMatcher.get_matching_blocks()`, with the terminating sentinel
`(la, lb, 0)`. -/
def get_matching_blocks (a b : List α) : List (Nat × Nat × Nat) :=
  collapseBlocks 0 0 0 (matchingBlocksAux a b (a.length + b.length) 0 a.length 0 b.length) ++
    [(a.length, b.length, 0)]

/-- Opcode tags of `get_opcodes`. -/
inductive Tag
  | replace
  | delete
  | insert
  | equal
deriving DecidableEq

/-- The loop of `get_opcodes`: walk the matching blocks, emitting a
replace/delete/insert opcode for the gap before each block and an equal
opcode for the block itself. -/
def opcodesLoop : Nat → Nat → List (Nat × Nat × Nat) → List (Tag × Nat × Nat × Nat × Nat)
  | _, _, [] => []
  | i, j, (ai, bj, size) :: rest =>
    (if i < ai ∧ j < bj then [(Tag.replace, i, ai, j, bj)]
     else if i < ai then [(Tag.delete, i, ai, j, bj)]
     else if j < bj then [(Tag.insert, i, ai, j, bj)]
     else []) ++
      (if size ≠ 0 then [(Tag.equal, ai, ai + size, bj, bj + size)] else []) ++
      opcodesLoop (ai + size) (bj + size) rest

/-- `SequenceMatcher.get_opcodes()`. -/
def get_opcodes (a b : List α) : List (Tag × Nat × Nat × Nat × Nat) :=
  opcodesLoop 0 0 (get_matching_blocks a b)

end SequenceMatcher

/-! ## `get_word_diffs` -/

/-- Python slice `l[i:j]` for `0 ≤ i ≤ j` (indices past the end clamp). -/
def sliceList {α : Type} (l : List α) (i j : Nat) : List α :=
  (l.drop i).take (j - i)

/-- One dict of the `changes` list returned by `get_word_diffs`:
`change`/`deletion`/`insertion` dicts carry `original` and `suggested`
(with `''` for the missing side), `equal` dicts carry `text`. -/
inductive DiffOp
  | change (original suggested : List Char)
  | deletion (original suggested : List Char)
  | insertion (original suggested : List Char)
  | equal (text : List Char)
deriving DecidableEq

/-- Mapping one opcode to its `changes` dict in `get_word_diffs`
(`''.join(original_words[i1:i2])` etc.). -/
def opcodeToDiff (ow sw : List (List Char)) (op : Tag × Nat × Nat × Nat × Nat) : DiffOp :=
  match op with
  | (Tag.replace, i1, i2, j1, j2) =>
    DiffOp.change (sliceList ow i1 i2).flatten (sliceList sw j1 j2).flatten
  | (Tag.delete, i1, i2, _, _) => DiffOp.deletion (sliceList ow i1 i2).flatten []
  | (Tag.insert, _, _, j1, j2) => DiffOp.insertion [] (sliceList sw j1 j2).flatten
  | (Tag.equal, i1, i2, _, _) => DiffOp.equal (sliceList ow i1 i2).flatten

/-- `get_word_diffs(original, suggested)` from `src/app.py`. -/
def get_word_diffs (original suggested : List Char) : List DiffOp :=
  let ow := split_into_words original
  let sw := split_into_words suggested
  (get_opcodes ow sw).map (opcodeToDiff ow sw)

/-- The text an op contributes on the original side (the `original` field,
`''` for insertions, the `text` for equal ops). -/
def DiffOp.originalSpan : DiffOp → List Char
  | DiffOp.change o _ => o
  | DiffOp.deletion o _ => o
  | DiffOp.insertion o _ => o
  | DiffOp.equal t => t

/-- The text an op contributes on the suggested side (the `suggested` field,
`''` for deletions, the `text` for equal ops). -/
def DiffOp.suggestedSpan : DiffOp → List Char
  | DiffOp.change _ s => s
  | DiffOp.deletion _ s => s
  | DiffOp.insertion _ s => s
  | DiffOp.equal t => t

/-! ## Tokenizer lemmas -/

theorem groupRuns_flatten (t : List Char) : (groupRuns t).flatten = t := by
  induction t with
  | nil => rfl
  | cons c cs ih =>
    simp only [groupRuns]
    cases h : groupRuns cs with
    | nil =>
      rw [h] at ih
      simp only [List.flatten] at ih ⊢
      simp [← ih]
    | cons r rest =>
      rw [h] at ih
      cases r with
      | nil => simp [← ih]
      | cons d ds =>
        by_cases hsp : pythonIsSpace c = pythonIsSpace d
        · simp [hsp, ← ih]
        · simp [hsp, ← ih]

theorem split_into_words_flatten (t : List Char) : (split_into_words t).flatten = t :=
  groupRuns_flatten t

theorem groupRuns_ne_nil (c : Char) (cs : List Char) : groupRuns (c :: cs) ≠ [] := by
  simp only [groupRuns]
  cases h : groupRuns cs with
  | nil => simp
  | cons r rest =>
    cases r with
    | nil => simp
    | cons d ds => by_cases hsp : pythonIsSpace c = pythonIsSpace d <;> simp [hsp]

/-! ## Substring lemmas -/

theorem containsSub_iff (s p : List Char) : containsSub s p = true ↔ p <:+: s := by
  unfold containsSub
  rw [List.any_eq_true]
  constructor
  · rintro ⟨t, ht, hp⟩
    rw [List.mem_tails] at ht
    exact List.infix_iff_prefix_suffix.mpr ⟨t, List.isPrefixOf_iff_prefix.mp hp, ht⟩
  · intro h
    obtain ⟨t, hp, ht⟩ := List.infix_iff_prefix_suffix.mp h
    exact ⟨t, (List.mem_tails _ _).mpr ht, List.isPrefixOf_iff_prefix.mpr hp⟩

theorem containsSub_termIssueMessage (term english : List Char) :
    containsSub (termIssueMessage term english) term = true := by
  rw [containsSub_iff]
  exact ⟨"Warning: '".data,
    "' might not be correctly translated as '".data ++ english ++ "'".data, by
      simp [termIssueMessage]⟩

/-! ## C9: tokenization loses no characters -/

/-- C9: for every string `t`, concatenating the tokens produced by the
tokenizer (`split_into_words`, i.e. `re.findall(r"\S+|\s+", t)`) reconstructs
`t` exactly. -/
theorem C9_tokenizer_reconstruction (t : List Char) :
    (split_into_words t).flatten = t :=
  groupRuns_flatten t

/-! ## Cache lemmas and claims -/

theorem lookup_append {κ β : Type} [BEq κ] [LawfulBEq κ] (l1 l2 : List (κ × β)) (k : κ) :
    (l1 ++ l2).lookup k =
      match l1.lookup k with
      | some v => some v
      | none => l2.lookup k := by
  induction l1 with
  | nil => rfl
  | cons p l1 ih =>
    simp only [List.cons_append, List.lookup]
    by_cases h : k = p.1
    · simp [h]
    · have : (k == p.1) = false := beq_false_of_ne h
      simp [this, ih]

theorem lookup_eq_none_not_mem {κ β : Type} [BEq κ] [LawfulBEq κ] (l : List (κ × β)) (k : κ)
    (h : l.lookup k = none) : k ∉ l.map Prod.fst := by
  induction l with
  | nil => simp
  | cons p l ih =>
    simp only [List.lookup] at h
    by_cases hk : k = p.1
    · rw [hk] at h; simp at h
    · have hb : (k == p.1) = false := beq_false_of_ne hk
      rw [hb] at h
      simp only [List.map_cons, List.mem_cons]
      rintro (rfl | hmem)
      · exact hk rfl
      · exact ih h hmem

/-- A put whose key is already present leaves the memory unchanged. -/
theorem update_mem_noop (x t d : List Char) (n : Nat) (mem : Memory)
    (h : (mem.lookup (cacheKey x d)).isSome) :
    (update_translation_memory x t d n mem).2 = mem := by
  unfold update_translation_memory
  simp [h]

/-- A put whose key is absent appends its entry. -/
theorem update_mem_insert (x t d : List Char) (n : Nat) (mem : Memory)
    (h : mem.lookup (cacheKey x d) = none) :
    (update_translation_memory x t d n mem).2 =
      mem ++ [(cacheKey x d, { translation := t, timestamp := n, direction := d })] := by
  unfold update_translation_memory
  simp [h]

/-- C2: the translation cache holds at most one entry per normalized key
(a `put` preserves key-uniqueness and is a no-op when the key is present),
and writes are first-write-wins: after `put(x, t1, d)` then `put(x, t2, d)`,
`get(x, d)` returns `t1` and `t2` is discarded. -/
theorem C2_cache_first_write_wins (x t1 t2 d : List Char) (n1 n2 : Nat) (mem : Memory) :
    ((mem.map Prod.fst).Nodup →
      (((update_translation_memory x t1 d n1 mem).2).map Prod.fst).Nodup)
    ∧ ((mem.lookup (cacheKey x d)).isSome → (update_translation_memory x t1 d n1 mem).2 = mem)
    ∧ (mem.lookup (cacheKey x d) = none →
        get_from_translation_memory x d
          (update_translation_memory x t2 d n2
            (update_translation_memory x t1 d n1 mem).2).2 = some t1) := by
  refine ⟨?_, update_mem_noop x t1 d n1 mem, ?_⟩
  · intro hnd
    by_cases h : (mem.lookup (cacheKey x d)).isSome
    · rw [update_mem_noop x t1 d n1 mem h]
      exact hnd
    · rw [Option.not_isSome_iff_eq_none] at h
      rw [update_mem_insert x t1 d n1 mem h]
      rw [List.map_append, List.nodup_append]
      refine ⟨hnd, List.nodup_singleton _, ?_⟩
      intro k hk1 hk2
      simp only [List.map_cons, List.map_nil, List.mem_singleton] at hk2
      subst hk2
      exact lookup_eq_none_not_mem mem _ h hk1
  · intro h
    have h1 := update_mem_insert x t1 d n1 mem h
    have hl : ((update_translation_memory x t1 d n1 mem).2).lookup (cacheKey x d) =
        some { translation := t1, timestamp := n1, direction := d } := by
      rw [h1, lookup_append, h]
      simp [List.lookup]
    rw [update_mem_noop x t2 d n2 _ (by rw [hl]; rfl)]
    unfold get_from_translation_memory
    rw [hl]
    rfl

/-- C2 witness: from the empty cache, `put(x, t1, d); put(x, t2, d)` then
`get(x, d)` returns `t1`. -/
theorem C2_cache_first_write_wins_witness :
    get_from_translation_memory "x".data "d".data
      (update_translation_memory "x".data "t2".data "d".data 1
        (update_translation_memory "x".data "t1".data "d".data 0 []).2).2
      = some "t1".data :=
  (C2_cache_first_write_wins "x".data "t1".data "t2".data "d".data 0 1 []).2.2 rfl

/-- C6 counterexample: `update_translation_memory` returns Python `None`
(`Unit` here) in both branches, so its return value is identical for a write
that inserted (the first call: the memory changed) and for a write that was a
no-op (the second call: the memory did not change); it carries no
success/no-op indication. -/
theorem C6_counterexample :
    ((update_translation_memory "a".data "t1".data "d".data 0 []).1
      = (update_translation_memory "a".data "t2".data "d".data 1
          (update_translation_memory "a".data "t1".data "d".data 0 []).2).1)
    ∧ (update_translation_memory "a".data "t1".data "d".data 0 []).2 ≠ []
    ∧ (update_translation_memory "a".data "t2".data "d".data 1
        (update_translation_memory "a".data "t1".data "d".data 0 []).2).2
      = (update_translation_memory "a".data "t1".data "d".data 0 []).2 := by
  refine ⟨rfl, by decide, by decide⟩

/-- C6 amended: `update_translation_memory` always returns `None` (no
indication of whether the insert happened); it inserts only when the key is
absent and leaves the memory unchanged when the key is present. -/
theorem C6_put_amended (x t d : List Char) (n : Nat) (mem : Memory) :
    (update_translation_memory x t d n mem).1 = ()
    ∧ (mem.lookup (cacheKey x d) = none →
        (update_translation_memory x t d n mem).2
          = mem ++ [(cacheKey x d, { translation := t, timestamp := n, direction := d })])
    ∧ (∀ e, mem.lookup (cacheKey x d) = some e →
        (update_translation_memory x t d n mem).2 = mem) := by
  refine ⟨rfl, ?_, ?_⟩
  · intro h
    unfold update_translation_memory
    simp [h]
  · intro e h
    unfold update_translation_memory
    simp [h]

/-- C6 amended witness: a fresh put on the empty cache appends its entry. -/
theorem C6_put_amended_witness :
    (update_translation_memory "a".data "t".data "d".data 0 []).2
      = [(cacheKey "a".data "d".data,
          { translation := "t".data, timestamp := 0, direction := "d".data })] :=
  (C6_put_amended "a".data "t".data "d".data 0 []).2.1 rfl

/-- C8: cache keys are normalized by trimming and lower-casing before the
direction discriminator is appended, so `put("  Foo ", t, d)` then
`get("foo", d)` hits the same entry and returns `t`. -/
theorem C8_cache_normalization (t d : List Char) (n : Nat) (mem : Memory)
    (h : mem.lookup (cacheKey "  Foo ".data d) = none) :
    get_from_translation_memory "foo".data d
      ((update_translation_memory "  Foo ".data t d n mem).2) = some t := by
  have hkey : cacheKey "  Foo ".data d = cacheKey "foo".data d := by
    unfold cacheKey
    have : lowerStr (pyStrip "  Foo ".data) = lowerStr (pyStrip "foo".data) := by decide
    rw [this]
  have h1 : (update_translation_memory "  Foo ".data t d n mem).2 =
      mem ++ [(cacheKey "  Foo ".data d,
        { translation := t, timestamp := n, direction := d })] := by
    unfold update_translation_memory
    simp [h]
  rw [h1]
  unfold get_from_translation_memory
  rw [← hkey, lookup_append, h]
  simp [List.lookup]

/-- C8 witness: on the empty cache, `put("  Foo ", t, d); get("foo", d) = t`. -/
theorem C8_cache_normalization_witness :
    get_from_translation_memory "foo".data "d".data
      ((update_translation_memory "  Foo ".data "t".data "d".data 0 []).2)
      = some "t".data :=
  C8_cache_normalization "t".data "d".data 0 [] rfl

/-! ## C3, C7: validator claims -/

/-- C3: in direction `no-to-en`, every glossary term whose source form occurs
(case-insensitively) in `original` while its English rendering does not occur
(case-insensitively) in `translated` yields a `technical_term`/`high` issue
whose message names the term. -/
theorem C3_term_check (original translated term : List Char) (info : TermInfo)
    (hmem : (term, info) ∈ technical_terms)
    (h1 : containsSub (lowerStr original) (lowerStr term) = true)
    (h2 : containsSub (lowerStr translated) (lowerStr info.english) = false) :
    ∃ issue ∈ validate_translation original translated ("no-to-en".data),
      issue.type = IssueType.technical_term ∧ issue.severity = Severity.high ∧
        containsSub issue.message term = true := by
  refine ⟨{ type := IssueType.technical_term, severity := Severity.high,
            message := termIssueMessage term info.english,
            source := some info.source, reference := some info.reference }, ?_, rfl, rfl,
          containsSub_termIssueMessage term info.english⟩
  unfold validate_translation
  simp only [if_pos rfl]
  refine List.mem_append_left _ (List.mem_append_left _ ?_)
  refine List.mem_filterMap.mpr ⟨(term, info), hmem, ?_⟩
  rw [if_pos]
  constructor
  · exact h1
  · rw [h2]
    simp

/-- C3 witness: the specified instance with the glossary term
`klimaendringer`. -/
theorem C3_term_check_witness :
    ∃ issue ∈ validate_translation ("klimaendringer er et problem".data)
        ("It is a problem".data) ("no-to-en".data),
      issue.type = IssueType.technical_term ∧ issue.severity = Severity.high ∧
        containsSub issue.message ("klimaendringer".data) = true :=
  C3_term_check _ _ ("klimaendringer".data)
    { english := "climate change".data, source := "Milj√∏direktoratet".data,
      context := "General term for climate change".data,
      reference := reference_sites.getD 0 [] }
    (by decide) (by decide) (by decide)

/-- `n` repetitions of the two-character block `"a "`: a text with exactly
`n` whitespace-separated words. -/
def repWords (n : Nat) : List Char := (List.replicate n ['a', ' ']).flatten

/-- The runs of `repWords n` alternate between the word `"a"` and the
separator `" "`. -/
theorem groupRuns_repWords :
    ∀ n : Nat, groupRuns (repWords n) = (List.replicate n [['a'], [' ']]).flatten := by
  intro n
  induction n with
  | zero => rfl
  | succ n ih =>
    have hrep : repWords (n + 1) = 'a' :: ' ' :: repWords n := by
      unfold repWords
      rw [List.replicate_succ]
      rfl
    rw [hrep, List.replicate_succ, List.flatten_cons]
    simp only [groupRuns]
    cases hg : groupRuns (repWords n) with
    | nil =>
      rw [hg] at ih
      simp [← ih]
      decide
    | cons r rest =>
      rw [hg] at ih
      cases n with
      | zero => simp at ih
      | succ m =>
        rw [List.replicate_succ, List.flatten_cons] at ih
        obtain ⟨hr, hrest⟩ := List.cons.inj ih
        subst hr
        subst hrest
        simp [pythonIsSpace, List.replicate_succ, List.flatten_cons]

/-- `repWords n` splits into exactly `n` words. -/
theorem pySplitWS_repWords (n : Nat) : (pySplitWS (repWords n)).length = n := by
  unfold pySplitWS
  rw [groupRuns_repWords n]
  induction n with
  | zero => rfl
  | succ n ih =>
    rw [List.replicate_succ, List.flatten_cons, List.filter_append, List.length_append, ih]
    show 1 + n = n + 1
    omega

/-- A text of `2^53 + 1` words. -/
def bigOriginal : List Char := repWords (2 ^ 53 + 1)

/-- A text of `2^52` words. -/
def bigTranslated : List Char := repWords (2 ^ 52)

/-- C7 counterexample: with `2^52` translated words against `2^53 + 1`
original words, the translated word count is strictly below half the
original word count, yet the validator returns no issue at all — converting
`2^53 + 1` to a Python float rounds it down to `2^53` (ties to even), and
`2 * 2^52 < 2^53` is false, so the length guard does not fire. -/
theorem C7_counterexample :
    2 * (pySplitWS bigTranslated).length < (pySplitWS bigOriginal).length ∧
      validate_translation bigOriginal bigTranslated ("en-to-no".data) = [] := by
  have h1 : (pySplitWS bigTranslated).length = 2 ^ 52 := pySplitWS_repWords _
  have h2 : (pySplitWS bigOriginal).length = 2 ^ 53 + 1 := pySplitWS_repWords _
  constructor
  · rw [h1, h2]
    have : 2 * 2 ^ 52 = 2 ^ 53 := by
      rw [show (53 : Nat) = 52 + 1 from rfl, pow_succ]
      ring
    omega
  · have hA : ¬ ("en-to-no".data = "no-to-en".data) := by decide
    have hB : ¬ (2 * 2 ^ 52 < floatRound (2 ^ 53 + 1)) := by decide
    have hC : ¬ ("en-to-no".data = "no-to-en".data ∧
        bigTranslated.any (fun c => norwegianChars.contains c) = true) :=
      fun hand => hA hand.1
    unfold validate_translation
    simp only [h1, h2, if_neg hA, if_neg hB, if_neg hC, List.append_nil]

/-- C7 (amended): whenever the translated word count is strictly below half
the original word count as the program computes it — below
`floatRound wo * 0.5`, where `floatRound wo` is the original word count
rounded to a Python float — the validator emits a `formatting`/`medium`
issue; below `2^53 + 1` original words the rounding is the identity and this
is the ideal half-count condition. -/
theorem C7_length_check (original translated direction : List Char)
    (h : 2 * (pySplitWS translated).length < floatRound (pySplitWS original).length) :
    ∃ issue ∈ validate_translation original translated direction,
      issue.type = IssueType.formatting ∧ issue.severity = Severity.medium := by
  refine ⟨{ type := IssueType.formatting, severity := Severity.medium,
            message := "Warning: Translation appears too short".data,
            source := none, reference := none }, ?_, rfl, rfl⟩
  unfold validate_translation
  simp only [if_pos h]
  exact List.mem_append_left _ (List.mem_append_right _ (List.mem_singleton.mpr rfl))

/-- C7 witness: the specified instance (1 translated word against 9). -/
theorem C7_length_check_witness :
    ∃ issue ∈ validate_translation
        ("ten words exactly in this given original sentence text".data)
        ("short".data) ("no-to-en".data),
      issue.type = IssueType.formatting ∧ issue.severity = Severity.medium :=
  C7_length_check _ _ _ (by decide)

/-! ## C10: the cached path of `translate_with_context` -/

/-- A memory whose entry for `("x", "d")` carries the empty string as the
cached translation. -/
def memWithEmptyTranslation : Memory :=
  [(cacheKey ("x".data) ("d".data),
    { translation := [], timestamp := 0, direction := "d".data })]

/-- C10 counterexample: the cache holds an entry for `("x", "d")`, yet
`translate_with_context` does not return it without validation — the cached
string is empty, Python's `if cached_translation:` is falsy, and the call
falls through to the API path, whose response carries a `validation` key. -/
theorem C10_counterexample :
    get_from_translation_memory ("x".data) ("d".data) memWithEmptyTranslation = some []
    ∧ ¬ ((translate_with_context ("x".data) ("d".data) (ApiResult.success ("Y".data)) 1
          memWithEmptyTranslation).1.validation = none) := by
  refine ⟨rfl, ?_⟩
  decide

/-- C10 amended: when the cache holds an entry for `(text, direction)` whose
translation is non-empty, `translate_with_context` returns it with status
200, no `validation` key and no `error` key, and leaves the memory unchanged. -/
theorem C10_cached_path (text direction : List Char) (api : ApiResult) (now : Nat)
    (mem : Memory) (c : List Char)
    (hc : get_from_translation_memory text direction mem = some c) (hne : c ≠ []) :
    translate_with_context text direction api now mem
      = ({ status_code := 200, content := some c, validation := none, error := none },
         mem) := by
  unfold translate_with_context
  rw [hc]
  simp [hne]

/-- A memory whose entry for `("x", "d")` carries a non-empty cached
translation. -/
def memWithTranslation : Memory :=
  [(cacheKey ("x".data) ("d".data),
    { translation := "hei".data, timestamp := 0, direction := "d".data })]

/-- C10 amended witness: a non-empty cached translation is returned verbatim,
unvalidated, with the memory untouched. -/
theorem C10_cached_path_witness :
    translate_with_context ("x".data) ("d".data) (ApiResult.success ("Y".data)) 1
        memWithTranslation
      = ({ status_code := 200, content := some ("hei".data), validation := none,
           error := none }, memWithTranslation) :=
  C10_cached_path _ _ _ _ _ _ rfl (by decide)

/-! ## Degenerate-window lemmas for the sequence matcher -/

theorem b2j_nil {α : Type} [DecidableEq α] (x : α) : b2j ([] : List α) x = [] := by
  unfold b2j occIdxs
  simp

theorem junkAt_true_eq_false {α : Type} [DecidableEq α] (b : List α) (idx : Nat) :
    junkAt b idx true = false := by
  unfold junkAt isbjunk
  cases b.get? idx <;> rfl

theorem extendLeft_zero {α : Type} [DecidableEq α] (a b : List α) (alo blo : Nat)
    (jv : Bool) (bj bs : Nat) : extendLeft a b alo blo jv 0 bj bs = (0, bj, bs) := rfl

theorem extLCond_junk {α : Type} [DecidableEq α] (a b : List α) (alo blo bi bj : Nat) :
    extLCond a b alo blo true bi bj = false := by
  unfold extLCond
  rw [junkAt_true_eq_false]
  simp

theorem extRCond_junk {α : Type} [DecidableEq α] (a b : List α) (ahi bhi bi bj bs : Nat) :
    extRCond a b ahi bhi true bi bj bs = false := by
  unfold extRCond
  rw [junkAt_true_eq_false]
  simp

theorem extendLeft_junk {α : Type} [DecidableEq α] (a b : List α) (alo blo : Nat) :
    ∀ bi bj bs, extendLeft a b alo blo true bi bj bs = (bi, bj, bs)
  | 0, _, _ => rfl
  | bi + 1, bj, bs => by
    simp only [extendLeft]
    rw [extLCond_junk]
    simp

theorem extendRightAux_junk {α : Type} [DecidableEq α] (a b : List α) (ahi bhi : Nat)
    (bi bj : Nat) : ∀ gas bs, extendRightAux a b ahi bhi true bi bj gas bs = (bi, bj, bs)
  | 0, _ => rfl
  | gas + 1, bs => by
    simp only [extendRightAux]
    rw [extRCond_junk]
    simp

theorem extendRight_junk {α : Type} [DecidableEq α] (a b : List α) (ahi bhi : Nat)
    (bi bj bs : Nat) : extendRight a b ahi bhi true bi bj bs = (bi, bj, bs) :=
  extendRightAux_junk a b ahi bhi bi bj _ bs

theorem flmLoop_nil_b {α : Type} [DecidableEq α] (a : List α) (blo bhi : Nat) :
    ∀ (is : List Nat) (j2 : List (Nat × Nat)) (best : Nat × Nat × Nat),
      flmLoop a ([] : List α) blo bhi is j2 best = best
  | [], _, _ => rfl
  | i :: is, j2, best => by
    cases h : a.get? i with
    | none =>
      simp only [flmLoop, jsAt, h, processJs]
      exact flmLoop_nil_b a blo bhi is [] best
    | some x =>
      simp only [flmLoop, jsAt, h, b2j_nil, collectJs, processJs]
      exact flmLoop_nil_b a blo bhi is [] best

theorem extendRight_nil_b {α : Type} [DecidableEq α] (a : List α) (ahi : Nat) (jv : Bool) :
    extendRight a ([] : List α) ahi 0 jv 0 0 0 = (0, 0, 0) := by
  unfold extendRight
  cases h : ahi - (0 + 0) with
  | zero => rfl
  | succ g =>
    simp only [extendRightAux]
    rw [if_neg]
    intro hc
    unfold extRCond at hc
    simp at hc

theorem flm_nil_b {α : Type} [DecidableEq α] (a : List α) (n : Nat) :
    find_longest_match a ([] : List α) 0 n 0 0 = (0, 0, 0) := by
  unfold find_longest_match
  rw [flmLoop_nil_b]
  simp only [extendLeft_zero, extendRight_nil_b]

theorem flm_nil_a {α : Type} [DecidableEq α] (b : List α) (m : Nat) :
    find_longest_match ([] : List α) b 0 0 0 m = (0, 0, 0) := rfl

theorem matchingBlocksAux_nil_a {α : Type} [DecidableEq α] (b : List α) (fuel m : Nat) :
    matchingBlocksAux ([] : List α) b fuel 0 0 0 m = [] := by
  cases fuel with
  | zero => rfl
  | succ f =>
    simp only [matchingBlocksAux, flm_nil_a]
    rfl

theorem matchingBlocksAux_nil_b {α : Type} [DecidableEq α] (a : List α) (fuel n : Nat) :
    matchingBlocksAux a ([] : List α) fuel 0 n 0 0 = [] := by
  cases fuel with
  | zero => rfl
  | succ f =>
    simp only [matchingBlocksAux, flm_nil_b]
    rfl

/-! ## C5: one empty side degenerates to a single op -/

theorem get_word_diffs_empty_original (B : List Char) (hB : B ≠ []) :
    get_word_diffs [] B = [DiffOp.insertion [] B] := by
  have hm : 0 < (split_into_words B).length := by
    cases B with
    | nil => exact absurd rfl hB
    | cons c cs => exact List.length_pos.mpr (groupRuns_ne_nil c cs)
  show (get_opcodes ([] : List (List Char)) (split_into_words B)).map
      (opcodeToDiff [] (split_into_words B)) = [DiffOp.insertion [] B]
  unfold get_opcodes get_matching_blocks
  simp only [List.length_nil]
  rw [matchingBlocksAux_nil_a]
  simp only [List.length_nil, collapseBlocks, ne_eq, not_true_eq_false, if_false,
    List.nil_append, opcodesLoop]
  rw [if_neg (by omega), if_neg (by omega), if_pos hm]
  simp only [if_neg (by omega : ¬ (0 : Nat) ≠ 0), List.append_nil, List.map_cons,
    List.map_nil, opcodeToDiff]
  unfold sliceList
  rw [Nat.sub_zero, List.drop_zero, List.take_length]
  rw [split_into_words_flatten]

theorem get_word_diffs_empty_suggested (A : List Char) (hA : A ≠ []) :
    get_word_diffs A [] = [DiffOp.deletion A []] := by
  have hn : 0 < (split_into_words A).length := by
    cases A with
    | nil => exact absurd rfl hA
    | cons c cs => exact List.length_pos.mpr (groupRuns_ne_nil c cs)
  show (get_opcodes (split_into_words A) ([] : List (List Char))).map
      (opcodeToDiff (split_into_words A) []) = [DiffOp.deletion A []]
  unfold get_opcodes get_matching_blocks
  simp only [List.length_nil]
  rw [show (split_into_words A).length + 0 = (split_into_words A).length from rfl,
    matchingBlocksAux_nil_b]
  simp only [List.length_nil, collapseBlocks, ne_eq, not_true_eq_false, if_false,
    List.nil_append, opcodesLoop]
  rw [if_neg (by omega), if_pos hn]
  simp only [if_neg (by omega : ¬ (0 : Nat) ≠ 0), List.append_nil, List.map_cons,
    List.map_nil, opcodeToDiff]
  unfold sliceList
  rw [Nat.sub_zero, List.drop_zero, List.take_length]
  rw [split_into_words_flatten]

/-- C5: if exactly one of the two inputs is empty, `get_word_diffs` returns a
single op — an insertion spanning all of `suggested` when `original` is
empty, a deletion spanning all of `original` when `suggested` is empty — and
(being a total function) raises no error. -/
theorem C5_empty_side (original suggested : List Char) :
    (original = [] → suggested ≠ [] →
      get_word_diffs original suggested = [DiffOp.insertion [] suggested])
    ∧ (suggested = [] → original ≠ [] →
      get_word_diffs original suggested = [DiffOp.deletion original []]) := by
  constructor
  · rintro rfl h
    exact get_word_diffs_empty_original suggested h
  · rintro rfl h
    exact get_word_diffs_empty_suggested original h

/-- C5 witness: both one-sided cases at a concrete non-empty text. -/
theorem C5_empty_side_witness :
    get_word_diffs [] ("hi ho".data) = [DiffOp.insertion [] ("hi ho".data)]
    ∧ get_word_diffs ("hi ho".data) [] = [DiffOp.deletion ("hi ho".data) []] :=
  ⟨(C5_empty_side [] ("hi ho".data)).1 rfl (by decide),
   (C5_empty_side ("hi ho".data) []).2 rfl (by decide)⟩

/-! ## Validity of `find_longest_match` (window bounds and match content) -/

section MatcherValidity

variable {α : Type} [DecidableEq α]

theorem mem_collectJs (blo bhi : Nat) :
    ∀ (l : List Nat) (j : Nat), j ∈ collectJs blo bhi l → (blo ≤ j ∧ j < bhi) ∧ j ∈ l
  | [], j, h => absurd h (List.not_mem_nil j)
  | j0 :: rest, j, h => by
    by_cases h1 : j0 < blo
    · simp only [collectJs, if_pos h1] at h
      have := mem_collectJs blo bhi rest j h
      exact ⟨this.1, List.mem_cons_of_mem _ this.2⟩
    · by_cases h2 : bhi ≤ j0
      · simp only [collectJs, if_neg h1, if_pos h2] at h
        exact absurd h (List.not_mem_nil j)
      · simp only [collectJs, if_neg h1, if_neg h2, List.mem_cons] at h
        rcases h with rfl | h
        · exact ⟨⟨by omega, by omega⟩, List.mem_cons_self _ _⟩
        · have := mem_collectJs blo bhi rest j h
          exact ⟨this.1, List.mem_cons_of_mem _ this.2⟩

theorem mem_b2j (b : List α) (x : α) (j : Nat) (h : j ∈ b2j b x) : b.get? j = some x := by
  unfold b2j at h
  split at h
  · exact absurd h (List.not_mem_nil j)
  · unfold occIdxs at h
    rw [List.mem_filter] at h
    exact of_decide_eq_true h.2

theorem jsAt_spec (a b : List α) (blo bhi i j : Nat) (h : j ∈ jsAt a b blo bhi i) :
    blo ≤ j ∧ j < bhi ∧ b.get? j = a.get? i := by
  unfold jsAt at h
  cases hg : a.get? i with
  | none => rw [hg] at h; exact absurd h (List.not_mem_nil j)
  | some x =>
    rw [hg] at h
    have h1 := mem_collectJs blo bhi _ j h
    exact ⟨h1.1.1, h1.1.2, (mem_b2j b x j h1.2)⟩

theorem matchAt_spec (a b : List α) (i j : Nat) (h : matchAt a b i j = true) :
    a.get? i = b.get? j := by
  unfold matchAt at h
  cases ha : a.get? i with
  | none => rw [ha] at h; simp at h
  | some x =>
    rw [ha] at h
    cases hb : b.get? j with
    | none => rw [hb] at h; simp at h
    | some y =>
      rw [hb] at h
      have : x = y := of_decide_eq_true h
      rw [this]

/-- The invariant of the running best match of `find_longest_match` over the
window `[alo, ahi) × [blo, bhi)`: either still the initial `(alo, blo, 0)`,
or a non-trivial in-window match whose spans agree pointwise. -/
def ValidBest (a b : List α) (alo ahi blo bhi : Nat) (m : Nat × Nat × Nat) : Prop :=
  m = (alo, blo, 0) ∨
    (1 ≤ m.2.2 ∧ alo ≤ m.1 ∧ m.1 + m.2.2 ≤ ahi ∧ blo ≤ m.2.1 ∧ m.2.1 + m.2.2 ≤ bhi ∧
      ∀ r, r < m.2.2 → a.get? (m.1 + r) = b.get? (m.2.1 + r))

/-- The invariant of a `j2len` association whose chains end at `a`-index `e`:
every entry `(j, k)` is an in-window `b`-index with a length-`k` common run
ending at `(e, j)`. -/
def J2LenInv (a b : List α) (alo blo bhi e : Nat) (l : List (Nat × Nat)) : Prop :=
  ∀ j k, l.lookup j = some k →
    blo ≤ j ∧ j < bhi ∧ k ≤ j + 1 - blo ∧ k ≤ e + 1 - alo ∧
      ∀ r, r < k → a.get? (e - r) = b.get? (j - r)

omit [DecidableEq α] in
theorem processJs_inv (a b : List α) (alo ahi blo bhi i : Nat)
    (hi1 : alo ≤ i) (hi2 : i < ahi) (old : List (Nat × Nat))
    (hold : J2LenInv a b alo blo bhi (i - 1) old) (hold0 : i = alo → old = []) :
    ∀ (S : List Nat) (acc : List (Nat × Nat)) (best : Nat × Nat × Nat),
      (∀ j, j ∈ S → blo ≤ j ∧ j < bhi ∧ b.get? j = a.get? i) →
      J2LenInv a b alo blo bhi i acc →
      ValidBest a b alo ahi blo bhi best →
      J2LenInv a b alo blo bhi i (processJs i old S acc best).1 ∧
        ValidBest a b alo ahi blo bhi (processJs i old S acc best).2
  | [], acc, best, _, hacc, hbest => ⟨hacc, hbest⟩
  | j :: S, acc, best, hS, hacc, hbest => by
    have hj := hS j (List.mem_cons_self _ _)
    -- the new chain length for b-index j
    obtain ⟨hjb, hjh, hjg⟩ := hj
    have hk : blo ≤ j ∧ j < bhi ∧ newk old j ≤ j + 1 - blo ∧ newk old j ≤ i + 1 - alo ∧
        ∀ r, r < newk old j → a.get? (i - r) = b.get? (j - r) := by
      by_cases hj0 : j = 0
      · have hkval : newk old j = 1 := by subst hj0; rfl
        rw [hkval]
        refine ⟨hjb, hjh, by omega, by omega, ?_⟩
        intro r hr
        have : r = 0 := by omega
        subst this
        simpa using hjg.symm
      · cases hl : old.lookup (j - 1) with
        | none =>
          have hkval : newk old j = 1 := by unfold newk; rw [if_neg hj0, hl]; rfl
          rw [hkval]
          refine ⟨hjb, hjh, by omega, by omega, ?_⟩
          intro r hr
          have : r = 0 := by omega
          subst this
          simpa using hjg.symm
        | some p =>
          have hkval : newk old j = p + 1 := by unfold newk; rw [if_neg hj0, hl]; rfl
          obtain ⟨hp1, hp2, hp3, hp4, hp5⟩ := hold (j - 1) p hl
          have hialo : i ≠ alo := by
            intro hia
            rw [hold0 hia] at hl
            simp [List.lookup] at hl
          rw [hkval]
          refine ⟨hjb, hjh, by omega, by omega, ?_⟩
          intro r hr
          cases r with
          | zero => simpa using hjg.symm
          | succ r' =>
            have h5 := hp5 r' (by omega)
            have e1 : i - (r' + 1) = i - 1 - r' := by omega
            have e2 : j - (r' + 1) = j - 1 - r' := by omega
            rw [e1, e2]
            exact h5
    obtain ⟨hk1, hk2, hk3, hk4, hk5⟩ := hk
    -- the updated best is valid
    have hbest' : ValidBest a b alo ahi blo bhi
        (if best.2.2 < newk old j then (i + 1 - newk old j, j + 1 - newk old j, newk old j)
         else best) := by
      by_cases hlt : best.2.2 < newk old j
      · rw [if_pos hlt]
        right
        dsimp only
        have h1 : 1 ≤ newk old j := by unfold newk; omega
        refine ⟨h1, by omega, by omega, by omega, by omega, ?_⟩
        intro r hr
        have hc := hk5 (newk old j - 1 - r) (by omega)
        have e1 : i - (newk old j - 1 - r) = i + 1 - newk old j + r := by omega
        have e2 : j - (newk old j - 1 - r) = j + 1 - newk old j + r := by omega
        rw [e1, e2] at hc
        exact hc
      · rw [if_neg hlt]
        exact hbest
    -- the extended association is a valid j2len
    have hacc' : J2LenInv a b alo blo bhi i ((j, newk old j) :: acc) := by
      intro j' k' hl
      simp only [List.lookup] at hl
      by_cases hjj : j' = j
      · subst hjj
        rw [beq_self_eq_true] at hl
        simp only [if_pos rfl] at hl
        cases hl
        exact ⟨hk1, hk2, hk3, hk4, hk5⟩
      · rw [beq_false_of_ne hjj] at hl
        simp only [Bool.false_eq_true, if_false] at hl
        exact hacc j' k' hl
    exact processJs_inv a b alo ahi blo bhi i hi1 hi2 old hold hold0 S _ _
      (fun j' hj' => hS j' (List.mem_cons_of_mem _ hj')) hacc' hbest'

end MatcherValidity

section MatcherValidity2

variable {α : Type} [DecidableEq α]

theorem flmLoop_inv (a b : List α) (alo ahi blo bhi : Nat) :
    ∀ (cnt t : Nat) (j2 : List (Nat × Nat)) (best : Nat × Nat × Nat),
      alo ≤ t → t + cnt ≤ ahi → (t = alo → j2 = []) →
      J2LenInv a b alo blo bhi (t - 1) j2 →
      ValidBest a b alo ahi blo bhi best →
      ValidBest a b alo ahi blo bhi (flmLoop a b blo bhi (List.range' t cnt) j2 best)
  | 0, t, j2, best, _, _, _, _, hbest => hbest
  | cnt + 1, t, j2, best, ht, htc, ht0, hj2, hbest => by
    simp only [List.range'] at *
    simp only [flmLoop]
    have hproc := processJs_inv a b alo ahi blo bhi t ht (by omega) j2 hj2 ht0
      (jsAt a b blo bhi t) [] best
      (fun j hj => jsAt_spec a b blo bhi t j hj)
      (fun j k hl => by simp [List.lookup] at hl)
      hbest
    exact flmLoop_inv a b alo ahi blo bhi cnt (t + 1) _ _ (by omega) (by omega)
      (fun h => absurd h (by omega)) hproc.1 hproc.2

theorem extLCond_spec (a b : List α) (alo blo : Nat) (jv : Bool) (bi bj : Nat)
    (h : extLCond a b alo blo jv bi bj = true) :
    alo < bi ∧ blo < bj ∧ a.get? (bi - 1) = b.get? (bj - 1) := by
  unfold extLCond at h
  simp only [Bool.and_eq_true, decide_eq_true_eq] at h
  exact ⟨h.1.1.1, h.1.1.2, matchAt_spec a b _ _ h.2⟩

theorem extRCond_spec (a b : List α) (ahi bhi : Nat) (jv : Bool) (bi bj bs : Nat)
    (h : extRCond a b ahi bhi jv bi bj bs = true) :
    bi + bs < ahi ∧ bj + bs < bhi ∧ a.get? (bi + bs) = b.get? (bj + bs) := by
  unfold extRCond at h
  simp only [Bool.and_eq_true, decide_eq_true_eq] at h
  exact ⟨h.1.1.1, h.1.1.2, matchAt_spec a b _ _ h.2⟩

theorem extendLeft_valid (a b : List α) (alo ahi blo bhi : Nat) (jv : Bool) :
    ∀ bi bj bs, ValidBest a b alo ahi blo bhi (bi, bj, bs) →
      ValidBest a b alo ahi blo bhi (extendLeft a b alo blo jv bi bj bs)
  | 0, bj, bs, h => h
  | bi + 1, bj, bs, h => by
    simp only [extendLeft]
    by_cases hc : extLCond a b alo blo jv (bi + 1) bj = true
    · rw [if_pos hc]
      obtain ⟨h1, h2, h3⟩ := extLCond_spec a b alo blo jv (bi + 1) bj hc
      apply extendLeft_valid a b alo ahi blo bhi jv
      rcases h with h | ⟨g1, g2, g3, g4, g5, g6⟩
      · exfalso
        simp only [Prod.mk.injEq] at h
        omega
      · dsimp only at g1 g2 g3 g4 g5 g6
        right
        dsimp only
        refine ⟨by omega, by omega, by omega, by omega, by omega, ?_⟩
        intro r hr
        cases r with
        | zero =>
          have e1 : bi + 1 - 1 = bi + 0 := by omega
          rw [e1] at h3
          exact h3
        | succ r' =>
          have hg := g6 r' (by omega)
          have e1 : bi + (r' + 1) = bi + 1 + r' := by omega
          have e2 : bj - 1 + (r' + 1) = bj + r' := by omega
          rw [e1, e2]
          exact hg
    · rw [if_neg hc]
      exact h

theorem extendRightAux_valid (a b : List α) (alo ahi blo bhi : Nat) (jv : Bool) (bi bj : Nat) :
    ∀ gas bs, ValidBest a b alo ahi blo bhi (bi, bj, bs) →
      ValidBest a b alo ahi blo bhi (extendRightAux a b ahi bhi jv bi bj gas bs)
  | 0, bs, h => h
  | gas + 1, bs, h => by
    simp only [extendRightAux]
    by_cases hc : extRCond a b ahi bhi jv bi bj bs = true
    · rw [if_pos hc]
      obtain ⟨h1, h2, h3⟩ := extRCond_spec a b ahi bhi jv bi bj bs hc
      apply extendRightAux_valid a b alo ahi blo bhi jv bi bj gas
      rcases h with h | ⟨g1, g2, g3, g4, g5, g6⟩
      · simp only [Prod.mk.injEq] at h
        obtain ⟨e1, e2, e3⟩ := h
        subst e1
        subst e2
        subst e3
        right
        dsimp only
        refine ⟨by omega, by omega, by omega, by omega, by omega, ?_⟩
        intro r hr
        have : r = 0 := by omega
        subst this
        simpa using h3
      · dsimp only at g1 g2 g3 g4 g5 g6
        right
        dsimp only
        refine ⟨by omega, by omega, by omega, by omega, by omega, ?_⟩
        intro r hr
        by_cases hrs : r < bs
        · exact g6 r hrs
        · have : r = bs := by omega
          subst this
          exact h3
    · rw [if_neg hc]
      exact h

theorem flmCore_valid (a b : List α) (alo ahi blo bhi : Nat) :
    ValidBest a b alo ahi blo bhi
      (flmLoop a b blo bhi (List.range' alo (ahi - alo)) [] (alo, blo, 0)) := by
  have h0 : ValidBest a b alo ahi blo bhi (alo, blo, 0) := Or.inl rfl
  by_cases hle : alo ≤ ahi
  · exact flmLoop_inv a b alo ahi blo bhi (ahi - alo) alo [] _ le_rfl (by omega)
      (fun _ => rfl) (fun j k hl => by simp [List.lookup] at hl) h0
  · have he : ahi - alo = 0 := by omega
    rw [he]
    exact h0

theorem flm_valid (a b : List α) (alo ahi blo bhi : Nat) :
    ValidBest a b alo ahi blo bhi (find_longest_match a b alo ahi blo bhi) := by
  have h1 := flmCore_valid a b alo ahi blo bhi
  unfold find_longest_match extendRight
  exact extendRightAux_valid a b alo ahi blo bhi true _ _ _ _
    (extendLeft_valid a b alo ahi blo bhi true _ _ _
      (extendRightAux_valid a b alo ahi blo bhi false _ _ _ _
        (extendLeft_valid a b alo ahi blo bhi false _ _ _ h1)))

end MatcherValidity2

/-! ## Matching blocks are chained, in-window, contentful matches -/

section ChainedBlocks

variable {α : Type} [DecidableEq α]

/-- `ChainedIn a b ihi jhi i j bs`: walking the blocks from cursor `(i, j)`,
every block starts at or after the cursor, its spans agree pointwise between
`a` and `b`, and the final cursor stays within `(ihi, jhi)`. -/
def ChainedIn (a b : List α) (ihi jhi : Nat) : Nat → Nat → List (Nat × Nat × Nat) → Prop
  | i, j, [] => i ≤ ihi ∧ j ≤ jhi
  | i, j, (ai, bj, k) :: rest =>
    i ≤ ai ∧ j ≤ bj ∧ (∀ r, r < k → a.get? (ai + r) = b.get? (bj + r)) ∧
      ChainedIn a b ihi jhi (ai + k) (bj + k) rest

omit [DecidableEq α] in
theorem chainedIn_weaken (a b : List α) (ihi jhi : Nat) (i j i' j' : Nat)
    (hi : i' ≤ i) (hj : j' ≤ j) :
    ∀ l, ChainedIn a b ihi jhi i j l → ChainedIn a b ihi jhi i' j' l
  | [], h => ⟨le_trans hi h.1, le_trans hj h.2⟩
  | (_, _, _) :: _, h =>
    ⟨le_trans hi h.1, le_trans hj h.2.1, h.2.2.1, h.2.2.2⟩

omit [DecidableEq α] in
theorem chainedIn_append (a b : List α) (ihi jhi m1 m2 : Nat) :
    ∀ (l1 : List (Nat × Nat × Nat)) (i j : Nat),
      ChainedIn a b m1 m2 i j l1 →
      ∀ l2, ChainedIn a b ihi jhi m1 m2 l2 →
        ChainedIn a b ihi jhi i j (l1 ++ l2)
  | [], i, j, h1, l2, h2 => by
    simpa using chainedIn_weaken a b ihi jhi m1 m2 i j h1.1 h1.2 l2 h2
  | (ai, bj, k) :: rest, i, j, h1, l2, h2 =>
    ⟨h1.1, h1.2.1, h1.2.2.1,
      chainedIn_append a b ihi jhi m1 m2 rest (ai + k) (bj + k) h1.2.2.2 l2 h2⟩

theorem matchingBlocksAux_chained (a b : List α) (fuel : Nat) :
    ∀ (alo ahi blo bhi : Nat), alo ≤ ahi → blo ≤ bhi →
      ChainedIn a b ahi bhi alo blo (matchingBlocksAux a b fuel alo ahi blo bhi) := by
  induction fuel with
  | zero => exact fun alo ahi blo bhi h1 h2 => ⟨h1, h2⟩
  | succ fuel ih =>
    intro alo ahi blo bhi h1 h2
    have hv := flm_valid a b alo ahi blo bhi
    rcases hm : find_longest_match a b alo ahi blo bhi with ⟨mi, mj, mk⟩
    rw [hm] at hv
    simp only [matchingBlocksAux, hm]
    by_cases hk : mk = 0
    · rw [if_pos hk]
      exact ⟨h1, h2⟩
    · rw [if_neg hk]
      rcases hv with hv | ⟨g1, g2, g3, g4, g5, g6⟩
      · exfalso
        simp only [Prod.mk.injEq] at hv
        exact hk hv.2.2
      · dsimp only at g1 g2 g3 g4 g5 g6 hk
        have hmid : ChainedIn a b ahi bhi mi mj
            ((mi, mj, mk) :: (if mi + mk < ahi ∧ mj + mk < bhi then
              matchingBlocksAux a b fuel (mi + mk) ahi (mj + mk) bhi else [])) := by
          refine ⟨le_rfl, le_rfl, g6, ?_⟩
          by_cases hg : mi + mk < ahi ∧ mj + mk < bhi
          · rw [if_pos hg]
            exact ih (mi + mk) ahi (mj + mk) bhi (by omega) (by omega)
          · rw [if_neg hg]
            exact ⟨g3, g5⟩
        by_cases hg2 : alo < mi ∧ blo < mj
        · rw [if_pos hg2]
          have hleft : ChainedIn a b mi mj alo blo
              (matchingBlocksAux a b fuel alo mi blo mj) :=
            ih alo mi blo mj (by omega) (by omega)
          exact chainedIn_append a b ahi bhi mi mj _ alo blo hleft _ hmid
        · rw [if_neg hg2]
          simp only [List.nil_append]
          exact chainedIn_weaken a b ahi bhi mi mj alo blo g2 g4 _ hmid

omit [DecidableEq α] in
theorem collapseBlocks_chained (a b : List α) (ihi jhi : Nat) :
    ∀ (blocks : List (Nat × Nat × Nat)) (i1 j1 k1 : Nat),
      (∀ r, r < k1 → a.get? (i1 + r) = b.get? (j1 + r)) →
      ChainedIn a b ihi jhi (i1 + k1) (j1 + k1) blocks →
      ChainedIn a b ihi jhi i1 j1 (collapseBlocks i1 j1 k1 blocks)
  | [], i1, j1, k1, hcont, hch => by
    simp only [collapseBlocks]
    by_cases hk : k1 ≠ 0
    · rw [if_pos hk]
      exact ⟨le_rfl, le_rfl, hcont, hch⟩
    · rw [if_neg hk]
      push_neg at hk
      subst hk
      simpa using hch
  | (i2, j2, k2) :: rest, i1, j1, k1, hcont, hch => by
    obtain ⟨hle1, hle2, hcont2, hrest⟩ := hch
    simp only [collapseBlocks]
    by_cases hadj : i1 + k1 = i2 ∧ j1 + k1 = j2
    · rw [if_pos hadj]
      apply collapseBlocks_chained a b ihi jhi rest i1 j1 (k1 + k2)
      · intro r hr
        by_cases hr1 : r < k1
        · exact hcont r hr1
        · have h2 := hcont2 (r - k1) (by omega)
          have e1 : i2 + (r - k1) = i1 + r := by omega
          have e2 : j2 + (r - k1) = j1 + r := by omega
          rw [e1, e2] at h2
          exact h2
      · have e1 : i1 + (k1 + k2) = i2 + k2 := by omega
        have e2 : j1 + (k1 + k2) = j2 + k2 := by omega
        rw [e1, e2]
        exact hrest
    · rw [if_neg hadj]
      have htail : ChainedIn a b ihi jhi i2 j2 (collapseBlocks i2 j2 k2 rest) :=
        collapseBlocks_chained a b ihi jhi rest i2 j2 k2 hcont2 hrest
      by_cases hk : k1 ≠ 0
      · rw [if_pos hk]
        exact ⟨le_rfl, le_rfl, hcont,
          chainedIn_weaken a b ihi jhi i2 j2 (i1 + k1) (j1 + k1) hle1 hle2 _ htail⟩
      · rw [if_neg hk]
        push_neg at hk
        subst hk
        simp only [List.nil_append]
        exact chainedIn_weaken a b ihi jhi i2 j2 i1 j1 (by omega) (by omega) _ htail

theorem get_matching_blocks_chained (a b : List α) :
    ChainedIn a b a.length b.length 0 0 (get_matching_blocks a b) := by
  unfold get_matching_blocks
  have hmb := matchingBlocksAux_chained a b (a.length + b.length) 0 a.length 0 b.length
    (by omega) (by omega)
  have hcol : ChainedIn a b a.length b.length 0 0
      (collapseBlocks 0 0 0
        (matchingBlocksAux a b (a.length + b.length) 0 a.length 0 b.length)) := by
    apply collapseBlocks_chained a b a.length b.length _ 0 0 0 (fun r hr => absurd hr (by omega))
    simpa using hmb
  apply chainedIn_append a b a.length b.length a.length b.length _ 0 0 hcol
  exact ⟨le_rfl, le_rfl, fun r hr => absurd hr (by omega), le_rfl, le_rfl⟩

end ChainedBlocks

/-! ## Slice lemmas -/

theorem sliceList_get? {β : Type} (l : List β) (i n r : Nat) :
    (sliceList l i (i + n)).get? r = if r < n then l.get? (i + r) else none := by
  unfold sliceList
  rw [Nat.add_sub_cancel_left]
  by_cases h : r < n
  · rw [if_pos h, List.get?_take h, List.get?_drop]
  · rw [if_neg h]
    apply List.get?_eq_none.mpr
    have := List.length_take n (l.drop i)
    omega

theorem sliceList_append {β : Type} (l : List β) (i m n : Nat) (h1 : i ≤ m) (h2 : m ≤ n) :
    sliceList l i m ++ sliceList l m n = sliceList l i n := by
  unfold sliceList
  have e1 : l.drop m = (l.drop i).drop (m - i) := by
    rw [List.drop_drop]
    congr 1
    omega
  rw [e1]
  have e2 : n - i = (m - i) + (n - m) := by omega
  rw [e2, List.take_add]

theorem sliceList_self {β : Type} (l : List β) (i : Nat) : sliceList l i i = [] := by
  unfold sliceList
  simp

theorem sliceList_eq_of_get? {β : Type} (a b : List β) (ai bj k : Nat)
    (h : ∀ r, r < k → a.get? (ai + r) = b.get? (bj + r)) :
    sliceList a ai (ai + k) = sliceList b bj (bj + k) := by
  apply List.ext_get?
  intro r
  rw [sliceList_get?, sliceList_get?]
  by_cases hr : r < k
  · rw [if_pos hr, if_pos hr]
    exact h r hr
  · rw [if_neg hr, if_neg hr]

theorem flatten_slice_append {β : Type} (l : List (List β)) (i m n : Nat)
    (h1 : i ≤ m) (h2 : m ≤ n) :
    (sliceList l i m).flatten ++ (sliceList l m n).flatten = (sliceList l i n).flatten := by
  rw [← List.flatten_append, sliceList_append l i m n h1 h2]

/-! ## Cursor end positions of a block list -/

def endA : Nat → List (Nat × Nat × Nat) → Nat
  | i, [] => i
  | _, (ai, _, k) :: rest => endA (ai + k) rest

def endB : Nat → List (Nat × Nat × Nat) → Nat
  | j, [] => j
  | _, (_, bj, k) :: rest => endB (bj + k) rest

theorem endA_append_sentinel (x y : Nat) :
    ∀ (l : List (Nat × Nat × Nat)) (i : Nat), endA i (l ++ [(x, y, 0)]) = x
  | [], _ => rfl
  | (ai, _, k) :: rest, _ => endA_append_sentinel x y rest (ai + k)

theorem endB_append_sentinel (x y : Nat) :
    ∀ (l : List (Nat × Nat × Nat)) (j : Nat), endB j (l ++ [(x, y, 0)]) = y
  | [], _ => rfl
  | (_, bj, k) :: rest, _ => endB_append_sentinel x y rest (bj + k)

theorem le_endAB {α : Type} [DecidableEq α] (a b : List α) (ihi jhi : Nat) :
    ∀ (l : List (Nat × Nat × Nat)) (i j : Nat), ChainedIn a b ihi jhi i j l →
      i ≤ endA i l ∧ j ≤ endB j l
  | [], _, _, _ => ⟨le_rfl, le_rfl⟩
  | (ai, bj, k) :: rest, i, j, h => by
    have hr := le_endAB a b ihi jhi rest (ai + k) (bj + k) h.2.2.2
    simp only [endA, endB]
    exact ⟨le_trans (le_trans h.1 (Nat.le_add_right ai k)) hr.1,
      le_trans (le_trans h.2.1 (Nat.le_add_right bj k)) hr.2⟩

/-! ## The opcode walk covers both token lists contiguously -/

theorem opcodesLoop_spans (ow sw : List (List Char)) (ihi jhi : Nat) :
    ∀ (bs : List (Nat × Nat × Nat)) (i j : Nat),
      ChainedIn ow sw ihi jhi i j bs →
      ((opcodesLoop i j bs).map (fun op => (opcodeToDiff ow sw op).originalSpan)).flatten
          = (sliceList ow i (endA i bs)).flatten
        ∧ ((opcodesLoop i j bs).map (fun op => (opcodeToDiff ow sw op).suggestedSpan)).flatten
          = (sliceList sw j (endB j bs)).flatten
  | [], i, j, _ => by
    simp only [opcodesLoop, List.map_nil, List.flatten_nil, endA, endB, sliceList_self]
    simp
  | (ai, bj, k) :: rest, i, j, h => by
    obtain ⟨h1, h2, hcont, hrest⟩ := h
    have ih := opcodesLoop_spans ow sw ihi jhi rest (ai + k) (bj + k) hrest
    have hend := le_endAB ow sw ihi jhi rest (ai + k) (bj + k) hrest
    simp only [opcodesLoop, endA, endB]
    -- the gap opcode before the block contributes ow[i:ai] / sw[j:bj]
    have hgap :
        ((if i < ai ∧ j < bj then [(Tag.replace, i, ai, j, bj)]
          else if i < ai then [(Tag.delete, i, ai, j, bj)]
          else if j < bj then [(Tag.insert, i, ai, j, bj)]
          else []).map (fun op => (opcodeToDiff ow sw op).originalSpan)).flatten
            = (sliceList ow i ai).flatten
          ∧ ((if i < ai ∧ j < bj then [(Tag.replace, i, ai, j, bj)]
          else if i < ai then [(Tag.delete, i, ai, j, bj)]
          else if j < bj then [(Tag.insert, i, ai, j, bj)]
          else []).map (fun op => (opcodeToDiff ow sw op).suggestedSpan)).flatten
            = (sliceList sw j bj).flatten := by
      by_cases hia : i < ai
      · by_cases hjb : j < bj
        · rw [if_pos ⟨hia, hjb⟩]
          simp [opcodeToDiff, DiffOp.originalSpan, DiffOp.suggestedSpan]
        · rw [if_neg (fun hand => hjb hand.2), if_pos hia]
          have hjj : j = bj := by omega
          subst hjj
          simp [opcodeToDiff, DiffOp.originalSpan, DiffOp.suggestedSpan, sliceList_self]
      · have hii : i = ai := by omega
        subst hii
        rw [if_neg (fun hand => hia hand.1)]
        by_cases hjb : j < bj
        · rw [if_neg hia, if_pos hjb]
          simp [opcodeToDiff, DiffOp.originalSpan, DiffOp.suggestedSpan, sliceList_self]
        · have hjj : j = bj := by omega
          subst hjj
          rw [if_neg hia, if_neg hjb]
          simp [sliceList_self]
    -- the equal opcode for the block contributes ow[ai:ai+k] / sw[bj:bj+k]
    have heq :
        ((if k ≠ 0 then [(Tag.equal, ai, ai + k, bj, bj + k)] else []).map
            (fun op => (opcodeToDiff ow sw op).originalSpan)).flatten
          = (sliceList ow ai (ai + k)).flatten
        ∧ ((if k ≠ 0 then [(Tag.equal, ai, ai + k, bj, bj + k)] else []).map
            (fun op => (opcodeToDiff ow sw op).suggestedSpan)).flatten
          = (sliceList sw bj (bj + k)).flatten := by
      by_cases hk : k ≠ 0
      · rw [if_pos hk]
        constructor
        · simp [opcodeToDiff, DiffOp.originalSpan]
        · simp only [List.map_cons, List.map_nil, opcodeToDiff, DiffOp.suggestedSpan,
            List.flatten_cons, List.flatten_nil, List.append_nil]
          rw [sliceList_eq_of_get? ow sw ai bj k hcont]
      · rw [if_neg hk]
        push_neg at hk
        subst hk
        simp [sliceList_self]
    rw [List.map_append, List.map_append, List.flatten_append, List.flatten_append,
      List.map_append, List.map_append, List.flatten_append, List.flatten_append]
    rw [hgap.1, hgap.2, heq.1, heq.2, ih.1, ih.2]
    constructor
    · rw [List.append_assoc,
        flatten_slice_append ow ai (ai + k) (endA (ai + k) rest) (by omega) hend.1,
        flatten_slice_append ow i ai (endA (ai + k) rest) h1 (by omega)]
    · rw [List.append_assoc,
        flatten_slice_append sw bj (bj + k) (endB (bj + k) rest) (by omega) hend.2,
        flatten_slice_append sw j bj (endB (bj + k) rest) h2 (by omega)]

/-! ## C1: the diff reconstructs both inputs -/

/-- C1: concatenating the `original` span of every op of
`get_word_diffs(A, B)` (the `text` for equal ops) yields `A`, and
concatenating the `suggested` span of every non-equal op together with the
`text` of every equal op, in order, yields `B`. -/
theorem C1_reconstruction (A B : List Char) :
    ((get_word_diffs A B).map DiffOp.originalSpan).flatten = A
    ∧ ((get_word_diffs A B).map DiffOp.suggestedSpan).flatten = B := by
  have hch := get_matching_blocks_chained (split_into_words A) (split_into_words B)
  have hsp := opcodesLoop_spans (split_into_words A) (split_into_words B)
    (split_into_words A).length (split_into_words B).length
    (get_matching_blocks (split_into_words A) (split_into_words B)) 0 0 hch
  have heA : endA 0 (get_matching_blocks (split_into_words A) (split_into_words B))
      = (split_into_words A).length := by
    unfold get_matching_blocks
    exact endA_append_sentinel _ _ _ 0
  have heB : endB 0 (get_matching_blocks (split_into_words A) (split_into_words B))
      = (split_into_words B).length := by
    unfold get_matching_blocks
    exact endB_append_sentinel _ _ _ 0
  have hslA : sliceList (split_into_words A) 0 (split_into_words A).length
      = split_into_words A := by
    unfold sliceList
    simp
  have hslB : sliceList (split_into_words B) 0 (split_into_words B).length
      = split_into_words B := by
    unfold sliceList
    simp
  constructor
  · show (((get_opcodes (split_into_words A) (split_into_words B)).map
        (opcodeToDiff (split_into_words A) (split_into_words B))).map
          DiffOp.originalSpan).flatten = A
    rw [List.map_map]
    have h := hsp.1
    rw [heA, hslA, split_into_words_flatten] at h
    exact h
  · show (((get_opcodes (split_into_words A) (split_into_words B)).map
        (opcodeToDiff (split_into_words A) (split_into_words B))).map
          DiffOp.suggestedSpan).flatten = B
    rw [List.map_map]
    have h := hsp.2
    rw [heB, hslB, split_into_words_flatten] at h
    exact h

/-! ## The diagonal argument: `find_longest_match` on identical sequences

For the idempotence claim we show that on a symmetric window
(`a = b`, `alo = blo`, `ahi = bhi`) the core loop's best match always lies on
the diagonal, because the chain value of an off-diagonal pair `(t, j)` never
exceeds the diagonal chain value at `min t j`, which is scanned earlier. -/

section Diagonal

variable {α : Type} [DecidableEq α]

theorem lt_length_of_get?_some {β : Type} (l : List β) (n : Nat) (x : β)
    (h : l.get? n = some x) : n < l.length := by
  by_contra hn
  rw [List.get?_eq_none.mpr (by omega)] at h
  cases h

theorem collectJs_eq_filter (blo bhi : Nat) :
    ∀ l : List Nat, l.Pairwise (· < ·) →
      collectJs blo bhi l = l.filter (fun j => decide (blo ≤ j) && decide (j < bhi))
  | [], _ => rfl
  | j :: rest, hp => by
    obtain ⟨hall, hrest⟩ := List.pairwise_cons.mp hp
    by_cases h1 : j < blo
    · rw [List.filter_cons]
      have hf : (decide (blo ≤ j) && decide (j < bhi)) = false := by
        simp only [Bool.and_eq_false_iff, decide_eq_false_iff_not]
        omega
      rw [hf]
      simp only [collectJs, if_pos h1, Bool.false_eq_true, if_false]
      exact collectJs_eq_filter blo bhi rest hrest
    · by_cases h2 : bhi ≤ j
      · simp only [collectJs, if_neg h1, if_pos h2]
        rw [List.filter_cons]
        have hf : (decide (blo ≤ j) && decide (j < bhi)) = false := by
          simp only [Bool.and_eq_false_iff, decide_eq_false_iff_not]
          omega
        rw [hf]
        simp only [Bool.false_eq_true, if_false]
        symm
        rw [List.filter_eq_nil_iff]
        intro q hq
        have := hall q hq
        simp only [Bool.and_eq_true, decide_eq_true_eq, not_and]
        omega
      · simp only [collectJs, if_neg h1, if_neg h2]
        rw [List.filter_cons]
        have hf : (decide (blo ≤ j) && decide (j < bhi)) = true := by
          simp only [Bool.and_eq_true, decide_eq_true_eq]
          omega
        rw [hf]
        simp only [if_pos trivial]
        rw [collectJs_eq_filter blo bhi rest hrest]

theorem b2j_pairwise (b : List α) (x : α) : (b2j b x).Pairwise (· < ·) := by
  unfold b2j
  split
  · exact List.Pairwise.nil
  · exact (List.pairwise_lt_range b.length).sublist (List.filter_sublist _)

theorem jsAt_pairwise (a b : List α) (blo bhi i : Nat) :
    (jsAt a b blo bhi i).Pairwise (· < ·) := by
  unfold jsAt
  cases a.get? i with
  | none => exact List.Pairwise.nil
  | some x =>
    show (collectJs blo bhi (b2j b x)).Pairwise (· < ·)
    rw [collectJs_eq_filter blo bhi (b2j b x) (b2j_pairwise b x)]
    exact (b2j_pairwise b x).sublist (List.filter_sublist _)

theorem mem_jsAt_self (w : List α) (lo hi t j : Nat) (h : j ∈ jsAt w w lo hi t)
    (ht1 : lo ≤ t) (ht2 : t < hi) : t ∈ jsAt w w lo hi t := by
  unfold jsAt at h ⊢
  cases hg : w.get? t with
  | none => rw [hg] at h; exact absurd h (List.not_mem_nil j)
  | some x =>
    rw [hg] at h
    change j ∈ collectJs lo hi (b2j w x) at h
    change t ∈ collectJs lo hi (b2j w x)
    rw [collectJs_eq_filter lo hi (b2j w x) (b2j_pairwise w x)] at h ⊢
    rw [List.mem_filter] at h ⊢
    refine ⟨?_, by simp; omega⟩
    have hbj := h.1
    unfold b2j at hbj ⊢
    split at hbj
    · exact absurd hbj (List.not_mem_nil j)
    · next hcond =>
      rw [if_neg hcond]
      unfold occIdxs at hbj ⊢
      rw [List.mem_filter] at hbj ⊢
      exact ⟨List.mem_range.mpr (lt_length_of_get?_some w t x hg),
        decide_eq_true (by exact hg)⟩

theorem jsAt_eq_of_mem (w : List α) (lo hi t j : Nat) (h : j ∈ jsAt w w lo hi t) :
    jsAt w w lo hi j = jsAt w w lo hi t := by
  have hs := jsAt_spec w w lo hi t j h
  unfold jsAt
  rw [hs.2.2]

/-- The diagonal chain value at index `t` of the symmetric core loop: the
length of the run of consecutive indices up to `t`, starting no earlier than
`lo`, all of which survive the `b2j` window filter. -/
def diagD (w : List α) (lo hi : Nat) : Nat → Nat
  | 0 => if lo = 0 ∧ 0 ∈ jsAt w w lo hi 0 then 1 else 0
  | t + 1 =>
    if lo ≤ t + 1 ∧ (t + 1) ∈ jsAt w w lo hi (t + 1) then
      (if t + 1 = lo then 1 else diagD w lo hi t + 1)
    else 0

theorem diagD_pos (w : List α) (lo hi t : Nat) (h1 : lo ≤ t)
    (h2 : t ∈ jsAt w w lo hi t) : 1 ≤ diagD w lo hi t := by
  cases t with
  | zero =>
    have hcond : lo = 0 ∧ 0 ∈ jsAt w w lo hi 0 := ⟨by omega, h2⟩
    simp only [diagD]
    split
    · omega
    · next hneg => exact absurd hcond hneg
  | succ t =>
    have hcond : lo ≤ t + 1 ∧ (t + 1) ∈ jsAt w w lo hi (t + 1) := ⟨h1, h2⟩
    simp only [diagD]
    split
    · split <;> omega
    · next hneg => exact absurd hcond hneg

theorem diagD_zero_of_not_mem (w : List α) (lo hi t : Nat)
    (h : t ∉ jsAt w w lo hi t) : diagD w lo hi t = 0 := by
  cases t with
  | zero =>
    simp only [diagD]
    split
    · next hpos => exact absurd hpos.2 h
    · rfl
  | succ t =>
    simp only [diagD]
    split
    · next hpos => exact absurd hpos.2 h
    · rfl

theorem diagD_succ_eq (w : List α) (lo hi t : Nat) (h1 : lo ≤ t) (hne : t ≠ lo)
    (h2 : t ∈ jsAt w w lo hi t) : diagD w lo hi t = diagD w lo hi (t - 1) + 1 := by
  cases t with
  | zero => omega
  | succ t =>
    have hcond : lo ≤ t + 1 ∧ (t + 1) ∈ jsAt w w lo hi (t + 1) := ⟨h1, h2⟩
    simp only [diagD]
    split
    · rfl
    · next hneg => exact absurd hcond hneg

theorem diagD_lo_eq (w : List α) (lo hi : Nat) (h2 : lo ∈ jsAt w w lo hi lo) :
    diagD w lo hi lo = 1 := by
  cases hl : lo with
  | zero =>
    subst hl
    have hcond : (0 : Nat) = 0 ∧ 0 ∈ jsAt w w 0 hi 0 := ⟨rfl, h2⟩
    simp only [diagD]
    split
    · rfl
    · next hneg => exact absurd ⟨trivial, h2⟩ hneg
  | succ l =>
    subst hl
    have hcond : l + 1 ≤ l + 1 ∧ (l + 1) ∈ jsAt w w (l + 1) hi (l + 1) := ⟨le_rfl, h2⟩
    simp only [diagD]
    split
    · rfl
    · next hneg => exact absurd hcond hneg

end Diagonal

section DiagonalLoop

variable {α : Type} [DecidableEq α]

theorem processJs_fst (i : Nat) (old : List (Nat × Nat)) :
    ∀ (S : List Nat) (acc : List (Nat × Nat)) (best : Nat × Nat × Nat),
      (processJs i old S acc best).1
        = (S.map (fun j => (j, newk old j))).reverse ++ acc
  | [], acc, best => by simp [processJs]
  | j :: S, acc, best => by
    simp only [processJs]
    rw [processJs_fst i old S ((j, newk old j) :: acc) _]
    simp

theorem lookup_revmap (g : Nat → Nat) :
    ∀ (S : List Nat) (j : Nat),
      ((S.map (fun j' => (j', g j'))).reverse).lookup j
        = if j ∈ S then some (g j) else none
  | [], j => by simp
  | s :: S, j => by
    simp only [List.map_cons, List.reverse_cons]
    rw [lookup_append, lookup_revmap g S j]
    by_cases hjS : j ∈ S
    · rw [if_pos hjS, if_pos (List.mem_cons_of_mem s hjS)]
    · rw [if_neg hjS]
      by_cases hjs : j = s
      · subst hjs
        rw [if_pos (List.mem_cons_self _ _)]
        simp [List.lookup]
      · rw [if_neg (by
          intro hmem
          rcases List.mem_cons.mp hmem with h | h
          · exact hjs h
          · exact hjS h)]
        simp [List.lookup, beq_false_of_ne hjs]

theorem processJs_noUpdate (i : Nat) (old : List (Nat × Nat)) :
    ∀ (S : List Nat) (acc : List (Nat × Nat)) (best : Nat × Nat × Nat),
      (∀ j, j ∈ S → newk old j ≤ best.2.2) →
      (processJs i old S acc best).2 = best
  | [], _, _, _ => rfl
  | j :: S, acc, best, h => by
    simp only [processJs]
    rw [if_neg (by
      have := h j (List.mem_cons_self _ _)
      omega)]
    exact processJs_noUpdate i old S _ best (fun j' hj' => h j' (List.mem_cons_of_mem _ hj'))

theorem processJs_append (i : Nat) (old : List (Nat × Nat)) :
    ∀ (S1 S2 : List Nat) (acc : List (Nat × Nat)) (best : Nat × Nat × Nat),
      processJs i old (S1 ++ S2) acc best
        = processJs i old S2 (processJs i old S1 acc best).1
            (processJs i old S1 acc best).2
  | [], S2, acc, best => rfl
  | j :: S1, S2, acc, best => by
    simp only [List.cons_append, processJs]
    exact processJs_append i old S1 S2 _ _

theorem newk_le_diagD_lt (w : List α) (lo hi t j : Nat) (old : List (Nat × Nat))
    (hA1 : ∀ j' k', old.lookup j' = some k' → lo ≤ j' ∧ j' < hi ∧
      (j' + 1 ≤ t → k' ≤ diagD w lo hi j') ∧ (t ≤ j' + 1 → k' ≤ diagD w lo hi (t - 1)))
    (hj : j ∈ jsAt w w lo hi t) (hjt : j < t) :
    newk old j ≤ diagD w lo hi j := by
  have hmem : j ∈ jsAt w w lo hi j := by
    rw [jsAt_eq_of_mem w lo hi t j hj]
    exact hj
  have hjw := jsAt_spec w w lo hi t j hj
  have hpos : 1 ≤ diagD w lo hi j := diagD_pos w lo hi j hjw.1 hmem
  unfold newk
  by_cases hj0 : j = 0
  · subst hj0
    simpa using hpos
  · rw [if_neg hj0]
    cases hl : old.lookup (j - 1) with
    | none => simpa using hpos
    | some p =>
      obtain ⟨hq1, hq2, hq3, hq4⟩ := hA1 (j - 1) p hl
      have hjlo : j ≠ lo := by omega
      have hD : diagD w lo hi j = diagD w lo hi (j - 1) + 1 :=
        diagD_succ_eq w lo hi j hjw.1 hjlo hmem
      have hp3 := hq3 (by omega)
      rw [hD]
      simp only [Option.getD_some]
      omega

theorem newk_eq_diagD_self (w : List α) (lo hi t : Nat) (old : List (Nat × Nat))
    (hA2 : lo + 1 ≤ t → old.lookup (t - 1)
      = (if (t - 1) ∈ jsAt w w lo hi (t - 1) then some (diagD w lo hi (t - 1)) else none))
    (old0 : t = lo → old = [])
    (hlo : lo ≤ t) (ht : t ∈ jsAt w w lo hi t) :
    newk old t = diagD w lo hi t := by
  by_cases hteq : t = lo
  · subst hteq
    rw [old0 rfl, diagD_lo_eq w t hi ht]
    unfold newk
    split
    · rfl
    · simp [List.lookup]
  · have h1 : lo + 1 ≤ t := by omega
    have hD := diagD_succ_eq w lo hi t hlo hteq ht
    unfold newk
    rw [if_neg (by omega : ¬ t = 0), hA2 h1]
    by_cases hm : (t - 1) ∈ jsAt w w lo hi (t - 1)
    · rw [if_pos hm]
      simp only [Option.getD_some]
      omega
    · rw [if_neg hm]
      simp only [Option.getD_none]
      rw [hD, diagD_zero_of_not_mem w lo hi (t - 1) hm]

theorem newk_le_diagD_gt (w : List α) (lo hi t j : Nat) (old : List (Nat × Nat))
    (hA1 : ∀ j' k', old.lookup j' = some k' → lo ≤ j' ∧ j' < hi ∧
      (j' + 1 ≤ t → k' ≤ diagD w lo hi j') ∧ (t ≤ j' + 1 → k' ≤ diagD w lo hi (t - 1)))
    (old0 : t = lo → old = [])
    (hj : j ∈ jsAt w w lo hi t) (hjt : t < j) (hlo : lo ≤ t) (hhi : t < hi) :
    newk old j ≤ diagD w lo hi t := by
  have hself : t ∈ jsAt w w lo hi t := mem_jsAt_self w lo hi t j hj hlo hhi
  have hDt : 1 ≤ diagD w lo hi t := diagD_pos w lo hi t hlo hself
  unfold newk
  rw [if_neg (by omega : ¬ j = 0)]
  cases hl : old.lookup (j - 1) with
  | none => simpa using hDt
  | some p =>
    obtain ⟨hq1, hq2, hq3, hq4⟩ := hA1 (j - 1) p hl
    have hp := hq4 (by omega)
    by_cases hteq : t = lo
    · rw [old0 hteq] at hl
      simp [List.lookup] at hl
    · have hD := diagD_succ_eq w lo hi t hlo hteq hself
      simp only [Option.getD_some]
      omega

end DiagonalLoop

section DiagonalMain

variable {α : Type} [DecidableEq α]

theorem flmLoop_sym (w : List α) (lo hi : Nat) :
    ∀ (cnt t : Nat) (old : List (Nat × Nat)) (best : Nat × Nat × Nat),
      lo ≤ t → t + cnt ≤ hi →
      (t = lo → old = []) →
      (∀ j k, old.lookup j = some k → lo ≤ j ∧ j < hi ∧
        (j + 1 ≤ t → k ≤ diagD w lo hi j) ∧ (t ≤ j + 1 → k ≤ diagD w lo hi (t - 1))) →
      (lo + 1 ≤ t → old.lookup (t - 1)
        = (if (t - 1) ∈ jsAt w w lo hi (t - 1) then some (diagD w lo hi (t - 1)) else none)) →
      best.1 = best.2.1 →
      (∀ t', lo ≤ t' → t' < t → diagD w lo hi t' ≤ best.2.2) →
      (flmLoop w w lo hi (List.range' t cnt) old best).1
        = (flmLoop w w lo hi (List.range' t cnt) old best).2.1
  | 0, t, old, best, _, _, _, _, _, hdiag, _ => hdiag
  | cnt + 1, t, old, best, hlot, hcnt, hold0, hA1, hA2, hdiag, hB => by
    simp only [List.range', flmLoop]
    have hthi : t < hi := by omega
    by_cases hjs : jsAt w w lo hi t = []
    · rw [hjs]
      simp only [processJs]
      refine flmLoop_sym w lo hi cnt (t + 1) [] best (by omega) (by omega)
        (fun _ => rfl)
        (fun j k hl => by simp [List.lookup] at hl)
        ?_ hdiag ?_
      · intro _
        have hne : t ∉ jsAt w w lo hi t := by rw [hjs]; exact List.not_mem_nil t
        rw [show t + 1 - 1 = t from rfl, if_neg hne]
        simp [List.lookup]
      · intro t' h1 h2
        by_cases ht' : t' < t
        · exact hB t' h1 ht'
        · have he : t' = t := by omega
          subst he
          rw [diagD_zero_of_not_mem w lo hi t' (by rw [hjs]; exact List.not_mem_nil t')]
          exact Nat.zero_le _
    · obtain ⟨j0, hj0⟩ := List.exists_mem_of_ne_nil _ hjs
      have htmem : t ∈ jsAt w w lo hi t := mem_jsAt_self w lo hi t j0 hj0 hlot hthi
      obtain ⟨P, Q, hPQ⟩ := List.append_of_mem htmem
      have hpw := jsAt_pairwise w w lo hi t
      rw [hPQ] at hpw
      have hsplit := List.pairwise_append.mp hpw
      have hPlt : ∀ p, p ∈ P → p < t :=
        fun p hp => hsplit.2.2 p hp t (List.mem_cons_self _ _)
      have hQgt : ∀ q, q ∈ Q → t < q :=
        fun q hq => (List.pairwise_cons.mp hsplit.2.1).1 q hq
      have hkt : newk old t = diagD w lo hi t :=
        newk_eq_diagD_self w lo hi t old hA2 hold0 hlot htmem
      have hDle : diagD w lo hi t ≤
          (if best.2.2 < diagD w lo hi t
            then (t + 1 - diagD w lo hi t, t + 1 - diagD w lo hi t, diagD w lo hi t)
            else best).2.2 := by
        split
        · exact le_rfl
        · omega
      have hble : best.2.2 ≤
          (if best.2.2 < diagD w lo hi t
            then (t + 1 - diagD w lo hi t, t + 1 - diagD w lo hi t, diagD w lo hi t)
            else best).2.2 := by
        split
        · next h => exact le_of_lt h
        · exact le_rfl
      have hdiag' :
          (if best.2.2 < diagD w lo hi t
            then (t + 1 - diagD w lo hi t, t + 1 - diagD w lo hi t, diagD w lo hi t)
            else best).1 =
          (if best.2.2 < diagD w lo hi t
            then (t + 1 - diagD w lo hi t, t + 1 - diagD w lo hi t, diagD w lo hi t)
            else best).2.1 := by
        split
        · rfl
        · exact hdiag
      have hB' : ∀ t', lo ≤ t' → t' < t + 1 → diagD w lo hi t' ≤
          (if best.2.2 < diagD w lo hi t
            then (t + 1 - diagD w lo hi t, t + 1 - diagD w lo hi t, diagD w lo hi t)
            else best).2.2 := by
        intro t' h1 h2
        by_cases ht' : t' < t
        · exact le_trans (hB t' h1 ht') hble
        · have he : t' = t := by omega
          subst he
          exact hDle
      have hPbound : ∀ p, p ∈ P → newk old p ≤ best.2.2 := by
        intro p hp
        have hpmem : p ∈ jsAt w w lo hi t := by
          rw [hPQ]
          exact List.mem_append_left _ hp
        have hpw2 := jsAt_spec w w lo hi t p hpmem
        have hle1 := newk_le_diagD_lt w lo hi t p old hA1 hpmem (hPlt p hp)
        have hle2 := hB p hpw2.1 (hPlt p hp)
        omega
      have hQbound : ∀ q, q ∈ Q → newk old q ≤
          (if best.2.2 < diagD w lo hi t
            then (t + 1 - diagD w lo hi t, t + 1 - diagD w lo hi t, diagD w lo hi t)
            else best).2.2 := by
        intro q hq
        have hqmem : q ∈ jsAt w w lo hi t := by
          rw [hPQ]
          exact List.mem_append_right _ (List.mem_cons_of_mem _ hq)
        have hle1 := newk_le_diagD_gt w lo hi t q old hA1 hold0 hqmem (hQgt q hq) hlot hthi
        omega
      have hsnd : (processJs t old (jsAt w w lo hi t) [] best).2 =
          (if best.2.2 < diagD w lo hi t
            then (t + 1 - diagD w lo hi t, t + 1 - diagD w lo hi t, diagD w lo hi t)
            else best) := by
        rw [hPQ, processJs_append, processJs_noUpdate t old P [] best hPbound]
        simp only [processJs]
        rw [hkt]
        rw [processJs_noUpdate t old Q _ _ hQbound]
      have hfst : (processJs t old (jsAt w w lo hi t) [] best).1 =
          ((jsAt w w lo hi t).map (fun j => (j, newk old j))).reverse := by
        rw [processJs_fst]
        simp
      rw [hfst, hsnd]
      refine flmLoop_sym w lo hi cnt (t + 1)
        ((jsAt w w lo hi t).map (fun j => (j, newk old j))).reverse _
        (by omega) (by omega)
        (fun h => absurd h (by omega)) ?_ ?_ hdiag' hB'
      · intro j k hl
        rw [lookup_revmap] at hl
        by_cases hjmem : j ∈ jsAt w w lo hi t
        · rw [if_pos hjmem] at hl
          cases hl
          have hjw := jsAt_spec w w lo hi t j hjmem
          refine ⟨hjw.1, hjw.2.1, ?_, ?_⟩
          · intro hle
            by_cases hjt : j < t
            · exact newk_le_diagD_lt w lo hi t j old hA1 hjmem hjt
            · have he : j = t := by omega
              subst he
              rw [hkt]
          · intro hge
            rw [show t + 1 - 1 = t from rfl]
            by_cases hjt : t < j
            · exact newk_le_diagD_gt w lo hi t j old hA1 hold0 hjmem hjt hlot hthi
            · have he : j = t := by omega
              subst he
              rw [hkt]
        · rw [if_neg hjmem] at hl
          cases hl
      · intro _
        rw [show t + 1 - 1 = t from rfl, lookup_revmap, if_pos htmem, if_pos htmem, hkt]

end DiagonalMain

section DiagonalExtensions

variable {α : Type} [DecidableEq α]

theorem extendLeft_sym (w : List α) (lo hi : Nat) (hhi : hi ≤ w.length) :
    ∀ (d k : Nat), lo ≤ d → d + k ≤ hi →
      extendLeft w w lo lo false d d k = (lo, lo, k + (d - lo))
  | 0, k, hlo, _ => by
    have h0 : lo = 0 := by omega
    subst h0
    rfl
  | d + 1, k, hlo, hdk => by
    by_cases hd : lo = d + 1
    · simp only [extendLeft]
      rw [if_neg (by
        unfold extLCond
        rw [← hd]
        simp)]
      rw [← hd]
      have he : k + (lo - lo) = k := by omega
      rw [he]
    · have hlod : lo ≤ d := by omega
      have hdlen : d < w.length := by omega
      cases hg : w.get? d with
      | none =>
        exfalso
        have := List.get?_eq_none.mp hg
        omega
      | some y =>
        have hcond : extLCond w w lo lo false (d + 1) (d + 1) = true := by
          unfold extLCond junkAt matchAt isbjunk
          rw [show d + 1 - 1 = d from rfl, hg]
          simp only [Bool.and_eq_true, decide_eq_true_eq]
          refine ⟨⟨⟨by omega, by omega⟩, by trivial⟩, by trivial⟩
        simp only [extendLeft]
        rw [if_pos hcond, show d + 1 - 1 = d from rfl]
        rw [extendLeft_sym w lo hi hhi d (k + 1) hlod (by omega)]
        have he : k + 1 + (d - lo) = k + (d + 1 - lo) := by omega
        rw [he]

theorem extendRightAux_sym (w : List α) (lo hi : Nat) (hhi : hi ≤ w.length) :
    ∀ (gas s : Nat), gas = hi - (lo + s) → lo + s ≤ hi →
      extendRightAux w w hi hi false lo lo gas s = (lo, lo, hi - lo)
  | 0, s, hgas, hle => by
    have hs : s = hi - lo := by omega
    subst hs
    rfl
  | gas + 1, s, hgas, hle => by
    have hlt : lo + s < hi := by omega
    have hlen : lo + s < w.length := by omega
    cases hg : w.get? (lo + s) with
    | none =>
      exfalso
      have := List.get?_eq_none.mp hg
      omega
    | some y =>
      have hcond : extRCond w w hi hi false lo lo s = true := by
        unfold extRCond junkAt matchAt isbjunk
        rw [hg]
        simp only [Bool.and_eq_true, decide_eq_true_eq]
        refine ⟨⟨⟨by omega, by omega⟩, by trivial⟩, by trivial⟩
      simp only [extendRightAux]
      rw [if_pos hcond]
      exact extendRightAux_sym w lo hi hhi gas (s + 1) (by omega) (by omega)

theorem flm_self (w : List α) (lo hi : Nat) (h1 : lo ≤ hi) (h2 : hi ≤ w.length) :
    find_longest_match w w lo hi lo hi = (lo, lo, hi - lo) := by
  have hdiag := flmLoop_sym w lo hi (hi - lo) lo [] (lo, lo, 0) le_rfl (by omega)
    (fun _ => rfl) (fun j k hl => by simp [List.lookup] at hl)
    (fun hc => absurd hc (by omega)) rfl
    (fun t' ht1 ht2 => absurd ht2 (by omega))
  have hv := flmCore_valid w w lo hi lo hi
  unfold find_longest_match extendRight
  rcases hcore : flmLoop w w lo hi (List.range' lo (hi - lo)) [] (lo, lo, 0) with ⟨ci, cj, ck⟩
  rw [hcore] at hdiag hv
  dsimp only at hdiag
  subst hdiag
  rcases hv with hv | ⟨g1, g2, g3, g4, g5, g6⟩
  · simp only [Prod.mk.injEq] at hv
    obtain ⟨e1, e2, e3⟩ := hv
    subst e1
    subst e3
    dsimp only
    rw [extendLeft_sym w ci hi h2 ci 0 le_rfl (by omega)]
    have he : (0 : Nat) + (ci - ci) = 0 := by omega
    rw [he]
    dsimp only
    rw [extendRightAux_sym w ci hi h2 (hi - (ci + 0)) 0 rfl (by omega)]
    dsimp only
    rw [extendLeft_junk w w ci ci ci ci (hi - ci)]
    rw [extendRightAux_junk w w hi hi ci ci (hi - (ci + (hi - ci))) (hi - ci)]
  · dsimp only at g1 g2 g3 g4 g5 g6
    dsimp only
    rw [extendLeft_sym w lo hi h2 ci ck g2 g3]
    dsimp only
    rw [extendRightAux_sym w lo hi h2 (hi - (lo + (ck + (ci - lo)))) (ck + (ci - lo)) rfl
      (by omega)]
    dsimp only
    rw [extendLeft_junk w w lo lo lo lo (hi - lo)]
    rw [extendRightAux_junk w w hi hi lo lo (hi - (lo + (hi - lo))) (hi - lo)]

end DiagonalExtensions

/-! ## C4: diffing a text against itself -/

/-- C4 counterexample: on the empty string, `get_word_diffs("", "")` returns
no ops at all (the token lists are empty, the matching blocks are just the
`(0, 0, 0)` sentinel, and the opcode loop emits nothing), so the claim's
"exactly one equal op" fails at `A = ""`. -/
theorem C4_counterexample : ¬ ∃ op : DiffOp, get_word_diffs [] [] = [op] := by
  intro hex
  obtain ⟨op, h⟩ := hex
  have he : get_word_diffs [] [] = [] := rfl
  rw [he] at h
  exact List.cons_ne_nil op [] h.symm

/-- C4 amended: for every non-empty string `A`, `get_word_diffs(A, A)`
returns exactly one op, an `equal` op whose text is all of `A` (for the empty
string it returns no ops). -/
theorem C4_diff_self (A : List Char) (hA : A ≠ []) :
    get_word_diffs A A = [DiffOp.equal A] := by
  have hn : 0 < (split_into_words A).length := by
    cases A with
    | nil => exact absurd rfl hA
    | cons c cs => exact List.length_pos.mpr (groupRuns_ne_nil c cs)
  have hflm : find_longest_match (split_into_words A) (split_into_words A) 0
      (split_into_words A).length 0 (split_into_words A).length
      = (0, 0, (split_into_words A).length) := by
    have := flm_self (split_into_words A) 0 (split_into_words A).length
      (by omega) le_rfl
    simpa using this
  obtain ⟨f, hf⟩ : ∃ f, (split_into_words A).length + (split_into_words A).length
      = f + 1 := ⟨(split_into_words A).length + (split_into_words A).length - 1, by omega⟩
  have hblocks : get_matching_blocks (split_into_words A) (split_into_words A)
      = [(0, 0, (split_into_words A).length),
         ((split_into_words A).length, (split_into_words A).length, 0)] := by
    unfold get_matching_blocks
    rw [hf]
    simp only [matchingBlocksAux]
    rw [hflm]
    dsimp only
    rw [if_neg (by omega : ¬ (split_into_words A).length = 0)]
    rw [if_neg (by omega : ¬ ((0 : Nat) < 0 ∧ (0 : Nat) < 0))]
    rw [if_neg (by omega : ¬ (0 + (split_into_words A).length < (split_into_words A).length
      ∧ 0 + (split_into_words A).length < (split_into_words A).length))]
    simp only [List.nil_append]
    have h3 : (split_into_words A).length ≠ 0 := by omega
    simp [collapseBlocks, h3]
  have hops : get_opcodes (split_into_words A) (split_into_words A)
      = [(Tag.equal, 0, (split_into_words A).length, 0, (split_into_words A).length)] := by
    unfold get_opcodes
    rw [hblocks]
    have h1 : ¬ ((0 : Nat) < 0) := by omega
    have h2 : ¬ (split_into_words A).length < (split_into_words A).length := by omega
    have h3 : (split_into_words A).length ≠ 0 := by omega
    simp [opcodesLoop, h1, h2, h3]
  show ((get_opcodes (split_into_words A) (split_into_words A)).map
      (opcodeToDiff (split_into_words A) (split_into_words A))) = [DiffOp.equal A]
  rw [hops]
  simp only [List.map_cons, List.map_nil, opcodeToDiff]
  have hsl : sliceList (split_into_words A) 0 (split_into_words A).length
      = split_into_words A := by
    unfold sliceList
    simp
  rw [hsl, split_into_words_flatten]

/-- C4 amended witness: a concrete multi-token text diffs against itself to a
single equal op. -/
theorem C4_diff_self_witness :
    get_word_diffs ("hei på deg".data) ("hei på deg".data)
      = [DiffOp.equal ("hei på deg".data)] :=
  C4_diff_self ("hei på deg".data) (by decide)
